import Mathlib

/-!
A heap model of the skip list of `SkipList.h`

The C++ objects live in a heap that is modelled by two allocation tables, one for
`Node<T>` objects and one for `LinkedList<T>` objects.  A pointer is an index into
the table of its type, `none` is `nullptr`.  Every function of the header that the
properties below talk about is transcribed statement by statement; a result of
`none` stands for a run that has no result (a null or dangling dereference, or a
loop that never ends).  The key type `T` of the templates is an integer type
(`int`, `long long`, ...): keys are integers, and `INT_MIN`, `INT_MAX` are the
`int` constants that line 260 passes to the `LinkedList` constructor, whatever `T`
is; they bound the keys only when `T` is `int`.
The calls of `rand()` are modelled by the list of the values they return, in
order; after the end of the list every further call returns `0`, so a list stands
for every generator that starts with it and every promotion draw ends.  The
counters `i` and `height` of `insert` are natural numbers: the `int` of the source
would overflow only after 2^31 - 1 odd values of `rand()` in a row.
-/

/-- A pointer value: `none` is `nullptr`, `some a` is the address `a`. -/
abbrev Ptr := Option Nat

/-- The constant `INT_MIN` of `<climits>` for a 32-bit `int`. -/
def INT_MIN : Int := -2147483648

/-- The constant `INT_MAX` of `<climits>` for a 32-bit `int`. -/
def INT_MAX : Int := 2147483647

/-- The fields of `class Node` (lines 14-25). -/
structure Node where
  data : Int
  next : Ptr
  prev : Ptr
  up : Ptr
  down : Ptr
  deriving DecidableEq, Repr

/-- The fields of `class LinkedList` (lines 27-42). -/
structure LinkedList where
  up : Ptr
  down : Ptr
  head : Ptr
  deriving DecidableEq, Repr

/-- The heap: every `Node` and every `LinkedList` allocated so far, by address. -/
structure Heap where
  nodes : List Node
  lists : List LinkedList
  deriving DecidableEq, Repr

/-- A `SkipList` object (lines 44-58) together with the heap it points into and the
values the coming calls of `rand()` return. -/
structure SkipList where
  heap : Heap
  topList : Ptr
  rands : List Nat
  deriving DecidableEq, Repr

/-- The value of a local pointer variable: never assigned, or assigned a pointer. -/
inductive PtrVal where
  | uninit : PtrVal
  | val : Ptr → PtrVal
  deriving DecidableEq, Repr

/-- `Node<T>::Node(data)` (lines 71-79): all four links start as `nullptr`. -/
def Node.new (data : Int) : Node :=
  { data := data, next := none, prev := none, up := none, down := none }

/-- The assignment `p->next = v` on the node table. -/
def setNext (nodes : List Node) (p : Nat) (v : Ptr) : Option (List Node) :=
  match nodes[p]? with
  | none => none
  | some n => some (nodes.set p { n with next := v })

/-- The assignment `p->prev = v` on the node table. -/
def setPrev (nodes : List Node) (p : Nat) (v : Ptr) : Option (List Node) :=
  match nodes[p]? with
  | none => none
  | some n => some (nodes.set p { n with prev := v })

/-- The assignment `p->up = v` on the table of lists. -/
def setUp (lists : List LinkedList) (p : Nat) (v : Ptr) : Option (List LinkedList) :=
  match lists[p]? with
  | none => none
  | some l => some (lists.set p { l with up := v })

/-- `LinkedList<T>::LinkedList(minVal, maxVal)` (lines 99-108): allocates the head
and the tail node, links them to each other, and returns the address of the new
list. -/
def LinkedList.new (h : Heap) (minVal maxVal : Int) : Heap × Nat :=
  let head := h.nodes.length
  let tail := h.nodes.length + 1
  let headNode : Node := { Node.new minVal with next := some tail }
  let tailNode : Node := { Node.new maxVal with prev := some head }
  ({ nodes := h.nodes ++ [headNode, tailNode],
     lists := h.lists ++ [{ up := none, down := none, head := some head }] },
   h.lists.length)

/-- The loop of `LinkedList<T>::search` (line 130), at most `fuel` iterations. -/
def LinkedList.searchLoop (nodes : List Node) (data : Int) : Nat → Ptr → Option Ptr
  | 0, _ => none
  | _, none => some none
  | fuel + 1, some loc =>
    match nodes[loc]? with
    | none => none
    | some l =>
      match l.next with
      | none => some (some loc)
      | some nx =>
        match nodes[nx]? with
        | none => none
        | some n =>
          if n.data ≤ data then LinkedList.searchLoop nodes data fuel (some nx)
          else some (some loc)

/-- `LinkedList<T>::search(location, data)` (lines 127-135).  A chain without a
cycle is walked in at most as many steps as there are nodes. -/
def LinkedList.search (h : Heap) (location : Ptr) (data : Int) : Option Ptr :=
  LinkedList.searchLoop h.nodes data (h.nodes.length + 1) location

/-- `LinkedList<T>::insert(location, data)` (lines 139-152): the new heap and the
returned pointer. -/
def LinkedList.insert (h : Heap) (location : Ptr) (data : Int) : Option (Heap × Ptr) :=
  match location with
  | none => some (h, none)
  | some loc =>
    match h.nodes[loc]? with
    | none => none
    | some l =>
      match l.next with
      | none => some (h, none)
      | some nx =>
        match h.nodes[nx]? with
        | none => none
        | some n =>
          if l.data < data ∧ n.data ≥ data then
            let newNode := h.nodes.length
            let nodes1 := h.nodes ++ [{ Node.new data with next := some nx, prev := some loc }]
            match setPrev nodes1 nx (some newNode) with
            | none => none
            | some nodes2 =>
              match setNext nodes2 loc (some newNode) with
              | none => none
              | some nodes3 => some ({ h with nodes := nodes3 }, some newNode)
          else some (h, none)

/-- The loop of `LinkedList<T>::printData` (lines 159-163): the data printed from
`curr` on, at most `fuel` nodes. -/
def LinkedList.printLoop (nodes : List Node) : Nat → Ptr → Option (List Int)
  | 0, _ => none
  | _, none => some []
  | fuel + 1, some curr =>
    match nodes[curr]? with
    | none => none
    | some c =>
      match LinkedList.printLoop nodes fuel c.next with
      | none => none
      | some rest => some (c.data :: rest)

/-- `LinkedList<T>::printData` (lines 155-165): the data of the list `this`, read
from the head along the `next` links. -/
def LinkedList.printData (h : Heap) (this : Nat) : Option (List Int) :=
  match h.lists[this]? with
  | none => none
  | some l => LinkedList.printLoop h.nodes (h.nodes.length + 1) l.head

/-- `SkipList<T>::SkipList(minVal, maxVal)` (lines 185-193) on a given heap;
`rands` is what the generator seeded by `srand(randSeed)` will return. -/
def SkipList.new (h : Heap) (rands : List Nat) (minVal maxVal : Int) : Option SkipList :=
  let (h1, top) := LinkedList.new h minVal maxVal
  match h1.lists[top]? with
  | none => none
  | some l =>
    some { heap := { h1 with lists := h1.lists.set top { l with down := none, up := none } },
           topList := some top, rands := rands }

/-- The empty heap a program starts with. -/
def Heap.empty : Heap := { nodes := [], lists := [] }

/-- The inner loop of `SkipList<T>::search` (lines 214-216), at most `fuel` steps. -/
def SkipList.searchRight (nodes : List Node) (data : Int) : Nat → Nat → Option Nat
  | 0, _ => none
  | fuel + 1, curr =>
    match nodes[curr]? with
    | none => none
    | some c =>
      match c.next with
      | none => some curr
      | some nx =>
        match nodes[nx]? with
        | none => none
        | some n =>
          if n.data ≤ data then SkipList.searchRight nodes data fuel nx else some curr

/-- The outer loop of `SkipList<T>::search` (lines 213-221), at most `fuel` levels. -/
def SkipList.searchLoop (nodes : List Node) (data : Int) : Nat → Nat → Option Nat
  | 0, _ => none
  | fuel + 1, curr =>
    match SkipList.searchRight nodes data (nodes.length + 1) curr with
    | none => none
    | some curr1 =>
      match nodes[curr1]? with
      | none => none
      | some c =>
        match c.down with
        | none => some curr1
        | some d => SkipList.searchLoop nodes data fuel d

/-- `SkipList<T>::search(data)` (lines 210-223): the address of the returned node. -/
def SkipList.search (s : SkipList) (data : Int) : Option Nat :=
  match s.topList with
  | none => none
  | some top =>
    match s.heap.lists[top]? with
    | none => none
    | some l =>
      match l.head with
      | none => none
      | some curr => SkipList.searchLoop s.heap.nodes data (s.heap.nodes.length + 1) curr

/-- The promotion draw of `SkipList<T>::insert` (lines 238-247): counts up from `i`
while `rand() % 2` is `1`; returns the count and the values of `rand()` left. -/
def drawHeight : List Nat → Nat → Nat × List Nat
  | [], i => (i, [])
  | r :: rest, i => if r % 2 = 1 then drawHeight rest (i + 1) else (i, rest)

/-- The height measurement of `SkipList<T>::insert` (lines 250-255): walks the
`down` links from `bottomList`, counting from `height`; at most `fuel` steps. -/
def SkipList.heightLoop (lists : List LinkedList) : Nat → Nat → Nat → Option (Nat × Nat)
  | 0, _, _ => none
  | fuel + 1, bottomList, height =>
    match lists[bottomList]? with
    | none => none
    | some l =>
      match l.down with
      | none => some (height, bottomList)
      | some d => SkipList.heightLoop lists fuel d (height + 1)

/-- The body of the branch `if (i > height)` (lines 260-264): a new list with the
sentinels `INT_MIN`, `INT_MAX` is put on top of `topList`. -/
def SkipList.grow (h : Heap) (topList : Ptr) : Option (Heap × Ptr) :=
  let (h1, newList) := LinkedList.new h INT_MIN INT_MAX
  match h1.lists[newList]? with
  | none => none
  | some nl =>
    let lists1 := h1.lists.set newList { nl with down := topList }
    match topList with
    | none => none
    | some top =>
      match setUp lists1 top (some newList) with
      | none => none
      | some lists2 =>
        match lists2[newList]? with
        | none => none
        | some nl2 =>
          some ({ h1 with lists := lists2.set newList { nl2 with up := none } }, some newList)

/-- The `for` loop of `SkipList<T>::insert` (lines 258-269) with `n` iterations
left; the state of the loop is the heap, `topList` and `bottomList`. -/
def SkipList.insertLoop (i height : Nat) (data : Int) :
    Nat → Heap → Ptr → Ptr → Option (Heap × Ptr × Ptr)
  | 0, h, topList, bottomList => some (h, topList, bottomList)
  | n + 1, h, topList, bottomList =>
    match (if i > height then SkipList.grow h topList else some (h, topList)) with
    | none => none
    | some (h1, topList1) =>
      match bottomList with
      | none => none
      | some bl =>
        match h1.lists[bl]? with
        | none => none
        | some l =>
          match LinkedList.search h1 l.head data with
          | none => none
          | some findPtr =>
            match LinkedList.insert h1 findPtr data with
            | none => none
            | some (h2, _) =>
              match h2.lists[bl]? with
              | none => none
              | some l2 => SkipList.insertLoop i height data n h2 topList1 l2.up

/-- `SkipList<T>::insert(data)` (lines 227-271): the skip list afterwards and the
returned value.  The local `insertedElement` is declared on line 237 and returned
on line 270 without ever being assigned. -/
def SkipList.insert (s : SkipList) (data : Int) : Option (SkipList × PtrVal) :=
  match SkipList.search s data with
  | none => none
  | some curr =>
    match s.heap.nodes[curr]? with
    | none => none
    | some c =>
      if c.data = data then some (s, PtrVal.val none)
      else
        let insertedElement := PtrVal.uninit
        let (i, rands1) := drawHeight s.rands 1
        match s.topList with
        | none => none
        | some top =>
          match SkipList.heightLoop s.heap.lists (s.heap.lists.length + 1) top 1 with
          | none => none
          | some (height, bottomList) =>
            match SkipList.insertLoop i height data i s.heap s.topList (some bottomList) with
            | none => none
            | some (h1, topList1, _) =>
              some ({ heap := h1, topList := topList1, rands := rands1 }, insertedElement)

/-- The loop of `SkipList<T>::printData` (lines 277-280): the printed lists from
`currentLists` downwards, at most `fuel` lists. -/
def SkipList.printLoop (h : Heap) : Nat → Ptr → Option (List (List Int))
  | 0, _ => none
  | _, none => some []
  | fuel + 1, some cur =>
    match LinkedList.printData h cur with
    | none => none
    | some line =>
      match h.lists[cur]? with
      | none => none
      | some l =>
        match SkipList.printLoop h fuel l.down with
        | none => none
        | some rest => some (line :: rest)

/-- `SkipList<T>::printData` (lines 274-281): the data of every list, the top-most
list first, each read from its head to its tail. -/
def SkipList.printData (s : SkipList) : Option (List (List Int)) :=
  SkipList.printLoop s.heap (s.heap.lists.length + 1) s.topList

/-- The loop of `LinkedList<T>::print` (lines 172-175): for every node from `curr`
on, its address and its fields as `Node<T>::print` (line 92) writes them; at most
`fuel` nodes. -/
def LinkedList.printNodesLoop (nodes : List Node) : Nat → Ptr → Option (List (Nat × Node))
  | 0, _ => none
  | _, none => some []
  | fuel + 1, some curr =>
    match nodes[curr]? with
    | none => none
    | some c =>
      match LinkedList.printNodesLoop nodes fuel c.next with
      | none => none
      | some rest => some ((curr, c) :: rest)

/-- `LinkedList<T>::print` (lines 168-178): the address and the fields of every
node of the list `this`, from the head along the `next` links. -/
def LinkedList.print (h : Heap) (this : Nat) : Option (List (Nat × Node)) :=
  match h.lists[this]? with
  | none => none
  | some l => LinkedList.printNodesLoop h.nodes (h.nodes.length + 1) l.head

/-- The loop of `SkipList<T>::print` (lines 286-289): what `print` writes for the
lists from `currentLists` downwards, at most `fuel` lists. -/
def SkipList.printNodesLoop (h : Heap) : Nat → Ptr → Option (List (List (Nat × Node)))
  | 0, _ => none
  | _, none => some []
  | fuel + 1, some cur =>
    match LinkedList.print h cur with
    | none => none
    | some line =>
      match h.lists[cur]? with
      | none => none
      | some l =>
        match SkipList.printNodesLoop h fuel l.down with
        | none => none
        | some rest => some (line :: rest)

/-- `SkipList<T>::print` (lines 283-290): the nodes of every list with their
addresses and links, the top-most list first. -/
def SkipList.print (s : SkipList) : Option (List (List (Nat × Node))) :=
  SkipList.printNodesLoop s.heap (s.heap.lists.length + 1) s.topList

/-- A run of `insert` calls, one per key, in order; `none` if one has no result. -/
def SkipList.insertAll : SkipList → List Int → Option SkipList
  | s, [] => some s
  | s, k :: ks =>
    match SkipList.insert s k with
    | none => none
    | some (s1, _) => SkipList.insertAll s1 ks

/-- The first values that `rand()` returns after `srand(330)` (lines 57, 190) in the
GNU C library; their remainders modulo 2 are 1, 1, 0, 0, 0, 1, 0, 1, 0, 1, 0, 0, so
the first promotion draws of `insert` give the heights 3, 1, 1, 2, 2, 2, 1. -/
def rand330 : List Nat :=
  [1608527341, 638799803, 1836583912, 249679794, 1521786358, 751497825, 1317954548,
   1789251199, 616968330, 1964704253, 1278463444, 1928785710]

/-- A program that constructs a skip list with the bounds `minVal`, `maxVal` on the
empty heap and then calls `insert` for every key of `keys`; `rands` are the values
its calls of `rand()` return. -/
def SkipList.run (rands : List Nat) (minVal maxVal : Int) (keys : List Int) :
    Option SkipList :=
  match SkipList.new Heap.empty rands minVal maxVal with
  | none => none
  | some s => SkipList.insertAll s keys

/-- The data of the node that `search(data)` returns. -/
def SkipList.searchData (s : SkipList) (data : Int) : Option Int :=
  match SkipList.search s data with
  | none => none
  | some p => (s.heap.nodes[p]?).map Node.data

/-- The height of the tower as `insert` measures it (lines 250-255): the number of
lists from `topList` down to the bottom-most one. -/
def SkipList.height (s : SkipList) : Option Nat :=
  match s.topList with
  | none => none
  | some top =>
    (SkipList.heightLoop s.heap.lists (s.heap.lists.length + 1) top 1).map Prod.fst

/-! ## The levels as sequences

The proofs describe a heap by the sequence of cells of every level: a cell is the
address of a node together with its key.  The functions below are the two list
operations on such sequences, generic in the projection `key`. -/

/-- The element at which a scan to the right stops: it moves on while the next
element has a key that is at most `data`. -/
def scanBy {α : Type} (key : α → Int) (data : Int) : List α → Option α
  | [] => none
  | [a] => some a
  | a :: b :: rest => if key b ≤ data then scanBy key data (b :: rest) else some a

/-- A scan to the right from the first element followed by the guarded insertion
of `new` behind the element where the scan stopped. -/
def insertBy {α : Type} (key : α → Int) (new : α) (data : Int) : List α → List α
  | [] => []
  | [a] => [a]
  | a :: b :: rest =>
    if key b ≤ data then a :: insertBy key new data (b :: rest)
    else if key a < data ∧ key b ≥ data then a :: new :: b :: rest
    else a :: b :: rest

/-- One level of the tower seen from outside: the address of the `LinkedList` and
the cells of its nodes from head to tail. -/
structure Lvl where
  addr : Nat
  cells : List (Nat × Int)

/-- The keys of a level, head to tail. -/
def Lvl.keys (L : Lvl) : List Int := L.cells.map Prod.snd

/-- The node addresses of a level, head to tail. -/
def Lvl.addrs (L : Lvl) : List Nat := L.cells.map Prod.fst

/-- The address of a level and of its head node. -/
def Lvl.sig (L : Lvl) : Nat × Ptr := (L.addr, L.cells.head?.map Prod.fst)

/-- The nodes at the addresses of `cells` form a doubly linked chain that carries
the keys of `cells`, starts after `prev` and ends with a null `next`; no node of it
has an `up` or a `down` link. -/
def IsLevelChain (nodes : List Node) : Ptr → List (Nat × Int) → Prop
  | _, [] => True
  | prev, c :: rest =>
    nodes[c.1]? = some { data := c.2, next := rest.head?.map Prod.fst, prev := prev,
                         up := none, down := none }
    ∧ IsLevelChain nodes (some c.1) rest

/-- The lists at the addresses of `sigs` form a doubly linked stack, bottom-most
first, linked by `up` and `down`, each with the given head. -/
def IsListChain (lists : List LinkedList) : Ptr → List (Nat × Ptr) → Prop
  | _, [] => True
  | down, c :: rest =>
    lists[c.1]? = some { up := rest.head?.map Prod.fst, down := down, head := c.2 }
    ∧ IsListChain lists (some c.1) rest

/-- A level is laid out in the node table as its cells say. -/
def LevelOK (nodes : List Node) (L : Lvl) : Prop :=
  IsLevelChain nodes none L.cells ∧ L.cells ≠ [] ∧ L.cells.length ≤ nodes.length
    ∧ ∀ a ∈ L.addrs, a < nodes.length

/-- The heap `h` with top pointer `topList` holds the tower `T` (bottom-most level
first): the lists are stacked, every level is a chain of its own nodes, and no
node belongs to two places. -/
structure IsTower (h : Heap) (topList : Ptr) (T : List Lvl) : Prop where
  top : topList = (T.map Lvl.addr).getLast?
  nonempty : T ≠ []
  stack : IsListChain h.lists none (T.map Lvl.sig)
  listNodup : (T.map Lvl.addr).Nodup
  listBound : ∀ a ∈ T.map Lvl.addr, a < h.lists.length
  listCount : T.length ≤ h.lists.length
  levels : ∀ L ∈ T, LevelOK h.nodes L
  nodeNodup : (T.map Lvl.addrs).flatten.Nodup

/-- The loop of `insert` on the key sequences of the levels (bottom-most first):
`n` iterations are left and the next one works on level `p`. -/
def keysLoop (grow : Bool) (data : Int) : Nat → Nat → List (List Int) → List (List Int)
  | 0, _, T => T
  | n + 1, p, T =>
    let T1 := if grow then T ++ [[INT_MIN, INT_MAX]] else T
    keysLoop grow data n (p + 1) (T1.set p (insertBy id data data (T1[p]?.getD [])))

/-- The call `insert(data)` on the key sequences of the levels. -/
def keysInsert (T : List (List Int)) (rands : List Nat) (data : Int) : List (List Int) :=
  if scanBy id data (T.getLast?.getD []) = some data then T
  else keysLoop (decide ((drawHeight rands 1).1 > T.length)) data (drawHeight rands 1).1 0 T

/-- The key sequences `K` of a tower whose bottom-most level is `lo`, the keys
`ks`, `hi`, and whose other levels hold keys of `ks` between their sentinels. -/
def BottomIs (lo hi : Int) (ks : List Int) (K : List (List Int)) : Prop :=
  K.head? = some (lo :: ks ++ [hi]) ∧
    ∀ U ∈ K.tail, ∀ x ∈ U, x = INT_MIN ∨ x = INT_MAX ∨ x ∈ ks

/-- The bottom-most level of `K` is strictly increasing and holds exactly the keys
`done` between `lo` and `hi`. -/
def BottomInv (lo hi : Int) (done : List Int) (K : List (List Int)) : Prop :=
  ∃ ks, BottomIs lo hi ks K ∧ (lo :: ks ++ [hi]).Sorted (· < ·) ∧
    ∀ x, x ∈ ks ↔ x ∈ done

/-- The addresses and the nodes of a chain with the given cells that starts after
`prev`. -/
def chainEntries : Ptr → List (Nat × Int) → List (Nat × Node)
  | _, [] => []
  | prev, c :: rest =>
    (c.1, { data := c.2, next := rest.head?.map Prod.fst, prev := prev, up := none,
            down := none }) :: chainEntries (some c.1) rest

/-- One call `insert(data)` on the key sequences of the levels and the values of
`rand()` that are left. -/
def keysStep (st : List (List Int) × List Nat) (data : Int) : List (List Int) × List Nat :=
  if scanBy id data (st.1.getLast?.getD []) = some data then st
  else (keysLoop (decide ((drawHeight st.2 1).1 > st.1.length)) data (drawHeight st.2 1).1 0
          st.1, (drawHeight st.2 1).2)

/-- A run of `insert` calls on the key sequences of the levels and the values of
`rand()`. -/
def keysRun (st : List (List Int) × List Nat) (keys : List Int) :
    List (List Int) × List Nat :=
  keys.foldl keysStep st

/-- The sentinels of the key sequences `K` (bottom-most level first): the
bottom-most level starts with `lo` and ends with `hi`, every other level starts
with `INT_MIN` and ends with `INT_MAX`. -/
def Sentinels (lo hi : Int) (K : List (List Int)) : Prop :=
  ∀ (j : Nat) (l : List Int), K[j]? = some l →
    ∃ ks, l = (if j = 0 then lo else INT_MIN) :: ks ++ [if j = 0 then hi else INT_MAX]

/-! ## The heap and the sequences of its levels

The lemmas below show that every function of the header, run on a heap that holds
a tower, returns, and that afterwards the heap holds the tower that the list
operations `scanBy` and `insertBy` describe. -/

/-- A chain stays a chain in every node table that agrees on its addresses. -/
theorem IsLevelChain.frame_nodes {nodes nodes1 : List Node} :
    ∀ (cells : List (Nat × Int)) (prev : Ptr), IsLevelChain nodes prev cells →
      (∀ c ∈ cells, nodes1[c.1]? = nodes[c.1]?) → IsLevelChain nodes1 prev cells
  | [], _, _, _ => trivial
  | c :: rest, _, hc, hf => by
    refine ⟨?_, IsLevelChain.frame_nodes rest _ hc.2
      fun d hd => hf d (List.mem_cons_of_mem _ hd)⟩
    rw [hf c (List.mem_cons_self _ _)]
    exact hc.1

/-- A stack of lists stays one in every table that agrees on its addresses. -/
theorem IsListChain.frame_lists {lists lists1 : List LinkedList} :
    ∀ (sigs : List (Nat × Ptr)) (down : Ptr), IsListChain lists down sigs →
      (∀ c ∈ sigs, lists1[c.1]? = lists[c.1]?) → IsListChain lists1 down sigs
  | [], _, _, _ => trivial
  | c :: rest, _, hc, hf => by
    refine ⟨?_, IsListChain.frame_lists rest _ hc.2
      fun d hd => hf d (List.mem_cons_of_mem _ hd)⟩
    rw [hf c (List.mem_cons_self _ _)]
    exact hc.1

/-- The print loop on a chain returns the keys of its cells. -/
theorem printLoop_chain {nodes : List Node} :
    ∀ (cells : List (Nat × Int)) (prev : Ptr) (fuel : Nat), IsLevelChain nodes prev cells →
      cells.length < fuel →
      LinkedList.printLoop nodes fuel (cells.head?.map Prod.fst) = some (cells.map Prod.snd)
  | [], _, fuel, _, hf => by
    cases fuel with
    | zero => simp at hf
    | succ f => simp [LinkedList.printLoop]
  | c :: rest, _, fuel, hc, hf => by
    cases fuel with
    | zero => simp at hf
    | succ f =>
      have ih := printLoop_chain rest (some c.1) f hc.2 (by simpa using hf)
      simp [LinkedList.printLoop, hc.1, ih]

/-- The guarded insertion never changes the first element. -/
theorem head?_insertBy {α : Type} (key : α → Int) (new : α) (data : Int) :
    ∀ l : List α, (insertBy key new data l).head? = l.head?
  | [] => rfl
  | [_] => rfl
  | a :: b :: rest => by
    simp only [insertBy]
    split_ifs <;> rfl

/-- The guarded insertion of a non-empty sequence is not empty. -/
theorem insertBy_ne_nil {α : Type} (key : α → Int) (new : α) (data : Int) (l : List α)
    (h : l ≠ []) : insertBy key new data l ≠ [] := by
  intro h0
  have := head?_insertBy key new data l
  rw [h0] at this
  cases l with
  | nil => exact h rfl
  | cons a t => simp at this

/-- An address below the old length that is not assigned keeps its node through the
allocation and the two assignments of `LinkedList::insert`. -/
theorem getElem?_set_set_append (nodes : List Node) (x np nq : Node) (p q a : Nat)
    (ha : a < nodes.length) (hp : a ≠ p) (hq : a ≠ q) :
    (((nodes ++ [x]).set p np).set q nq)[a]? = nodes[a]? := by
  rw [List.getElem?_set_ne (Ne.symm hq), List.getElem?_set_ne (Ne.symm hp),
    List.getElem?_append_left ha]

/-- The search from the head of a chain followed by `LinkedList::insert` at the node
found returns, and the nodes of the chain afterwards are those of the guarded insertion
of a cell at the fresh address; no node outside the chain changes. -/
theorem chain_insert (nodes : List Node) (lists : List LinkedList) (data : Int) :
    ∀ (cells : List (Nat × Int)) (prev : Ptr) (fuel : Nat),
      IsLevelChain nodes prev cells → cells ≠ [] → (cells.map Prod.fst).Nodup →
      (∀ a ∈ cells.map Prod.fst, a < nodes.length) → cells.length ≤ fuel →
      ∃ (loc : Nat) (nodes1 : List Node) (r : Ptr),
        LinkedList.searchLoop nodes data fuel (cells.head?.map Prod.fst) = some (some loc) ∧
        LinkedList.insert ⟨nodes, lists⟩ (some loc) data = some (⟨nodes1, lists⟩, r) ∧
        IsLevelChain nodes1 prev (insertBy Prod.snd (nodes.length, data) data cells) ∧
        (∀ a, a < nodes.length → a ∉ cells.map Prod.fst → nodes1[a]? = nodes[a]?) ∧
        nodes1.length + cells.length
          = nodes.length + (insertBy Prod.snd (nodes.length, data) data cells).length
  | [], _, _, _, hne, _, _, _ => absurd rfl hne
  | [a], prev, fuel, hc, _, _, _, hf => by
    obtain ⟨f, rfl⟩ : ∃ f, fuel = f + 1 := ⟨fuel - 1, by simp at hf; omega⟩
    have ha := hc.1
    simp only [List.head?_nil, Option.map_none'] at ha
    refine ⟨a.1, nodes, none, ?_, ?_, ?_, fun _ _ _ => rfl, rfl⟩
    · simp [LinkedList.searchLoop, ha]
    · simp [LinkedList.insert, ha]
    · exact hc
  | a :: b :: rest, prev, fuel, hc, _, hnd, hlt, hf => by
    obtain ⟨f, rfl⟩ : ∃ f, fuel = f + 1 := ⟨fuel - 1, by simp at hf; omega⟩
    have ha := hc.1
    have hb := hc.2.1
    simp only [List.head?_cons, Option.map_some'] at ha
    have hab : a.1 ≠ b.1 := by
      intro h
      simp [h] at hnd
    have halt : a.1 < nodes.length := hlt a.1 (by simp)
    have hblt : b.1 < nodes.length := hlt b.1 (by simp)
    by_cases hle : b.2 ≤ data
    · obtain ⟨loc, nodes1, r, h1, h2, h3, h4, h5⟩ :=
        chain_insert nodes lists data (b :: rest) (some a.1) f hc.2 (by simp)
          (List.nodup_cons.mp hnd).2 (fun x hx => hlt x (List.mem_cons_of_mem _ hx))
          (by simpa using hf)
      refine ⟨loc, nodes1, r, ?_, h2, ?_, ?_, ?_⟩
      · simp only [List.head?_cons, Option.map_some'] at h1 ⊢
        simp [LinkedList.searchLoop, ha, hb, hle, h1]
      · simp only [insertBy, hle, if_true]
        refine ⟨?_, h3⟩
        rw [h4 a.1 halt (List.nodup_cons.mp hnd).1, ha, head?_insertBy]
        rfl
      · intro x hx hxn
        exact h4 x hx fun hm => hxn (List.mem_cons_of_mem _ hm)
      · simp only [insertBy, hle, if_true, List.length_cons] at h5 ⊢
        omega
    · by_cases hg : a.2 < data ∧ b.2 ≥ data
      · have hnew : ∀ x ∈ (a :: b :: rest).map Prod.fst, x ≠ nodes.length :=
          fun x hx => Nat.ne_of_lt (hlt x hx)
        refine ⟨a.1, ((nodes ++ [Node.mk data (some b.1) (some a.1) none none]).set b.1
            (Node.mk b.2 (rest.head?.map Prod.fst) (some nodes.length) none none)).set a.1
            (Node.mk a.2 (some nodes.length) prev none none),
          some nodes.length, ?_, ?_, ?_, ?_, ?_⟩
        · simp only [List.head?_cons, Option.map_some']
          simp [LinkedList.searchLoop, ha, hb, hle]
        · simp [LinkedList.insert, ha, hb, hg, setPrev, setNext,
            List.getElem?_append_left hblt, List.getElem?_append_left halt,
            List.getElem?_set_ne (Ne.symm hab), Node.new]
        · simp only [insertBy, hle, hg, if_true, if_false, and_self]
          have hal : a.1 ≠ nodes.length := hnew a.1 (by simp)
          have hbl : b.1 ≠ nodes.length := hnew b.1 (by simp)
          refine ⟨?_, ?_, ?_, ?_⟩
          · rw [List.getElem?_set_self (by simpa using Nat.lt_succ_of_lt halt)]
            rfl
          · rw [List.getElem?_set_ne hal, List.getElem?_set_ne hbl,
              List.getElem?_concat_length]
            rfl
          · rw [List.getElem?_set_ne hab,
              List.getElem?_set_self (by simpa using Nat.lt_succ_of_lt hblt)]
          · refine IsLevelChain.frame_nodes rest _ hc.2.2 fun c hcm => ?_
            have hcm1 : c.1 ∈ rest.map Prod.fst := List.mem_map_of_mem _ hcm
            have hnd1 := List.nodup_cons.mp hnd
            have hnd2 := List.nodup_cons.mp hnd1.2
            refine getElem?_set_set_append nodes _ _ _ _ _ c.1
              (hlt c.1 (by simp [hcm1])) ?_ ?_
            · rintro h
              exact hnd2.1 (h ▸ hcm1)
            · rintro h
              exact hnd1.1 (List.mem_cons_of_mem _ (h ▸ hcm1))
        · intro x hx hxn
          simp only [List.map_cons, List.mem_cons, not_or] at hxn
          exact getElem?_set_set_append nodes _ _ _ _ _ x hx hxn.2.1 hxn.1
        · simp only [insertBy, hle, hg, if_true, if_false, and_self, List.length_cons,
            List.length_set, List.length_append, List.length_nil]
          omega
      · refine ⟨a.1, nodes, none, ?_, ?_, ?_, fun _ _ _ => rfl, ?_⟩
        · simp only [List.head?_cons, Option.map_some']
          simp [LinkedList.searchLoop, ha, hb, hle]
        · simp [LinkedList.insert, ha, hb, hg]
        · simp only [insertBy, hle, hg, if_false]
          exact hc
        · simp only [insertBy, hle, hg, if_false]

/-- The record of a list in the middle of a stack. -/
theorem IsListChain.lookup_mid {lists : List LinkedList} :
    ∀ (xs : List (Nat × Ptr)) (d : Ptr) (c : Nat × Ptr) (ys : List (Nat × Ptr)),
      IsListChain lists d (xs ++ c :: ys) →
      lists[c.1]? = some ⟨ys.head?.map Prod.fst,
        (match xs.getLast? with
          | some x => some x.1
          | none => d), c.2⟩
  | [], _, _, _, h => h.1
  | [x], _, c, ys, h => by
    simpa using (IsListChain.lookup_mid [] (some x.1) c ys h.2)
  | x :: y :: xs, _, c, ys, h => by
    have := IsListChain.lookup_mid (y :: xs) (some x.1) c ys h.2
    rw [this]
    simp [List.getLast?_cons_cons]
    cases hxs : (y :: xs).getLast? with
    | none => simp at hxs
    | some z => rfl

/-- The record of the list of a level of a tower. -/
theorem IsTower.lookup {h : Heap} {top : Ptr} {T : List Lvl} (hT : IsTower h top T)
    (xs : List Lvl) (L : Lvl) (ys : List Lvl) (e : T = xs ++ L :: ys) :
    h.lists[L.addr]? = some ⟨ys.head?.map Lvl.addr, xs.getLast?.map Lvl.addr,
      L.cells.head?.map Prod.fst⟩ := by
  have hs := hT.stack
  rw [e, List.map_append, List.map_cons] at hs
  have := IsListChain.lookup_mid _ _ _ _ hs
  refine this.trans ?_
  simp only [Lvl.sig, List.getLast?_map, List.head?_map]
  congr 2
  · cases ys <;> rfl
  · cases xs.getLast? <;> rfl

/-- The height loop started at a list of a stack counts the lists below it and ends at
the bottom-most list. -/
theorem heightLoop_chain (lists : List LinkedList) (ys0 : List (Nat × Ptr)) (b : Nat × Ptr) :
    ∀ (xs : List (Nat × Ptr)) (c : Nat × Ptr) (ys : List (Nat × Ptr)) (fuel k : Nat),
      IsListChain lists none (xs ++ c :: ys) → xs.length < fuel →
      (xs ++ c :: ys) = b :: ys0 →
      SkipList.heightLoop lists fuel c.1 k = some (k + xs.length, b.1) := by
  intro xs
  induction xs using List.reverseRecOn with
  | nil =>
    intro c ys fuel k h hf e
    obtain ⟨f, rfl⟩ : ∃ f, fuel = f + 1 := ⟨fuel - 1, by simp at hf; omega⟩
    have hl := IsListChain.lookup_mid [] none c ys h
    simp only [List.nil_append, List.cons.injEq] at e
    obtain ⟨rfl, rfl⟩ := e
    simp [SkipList.heightLoop, hl]
  | append_singleton xs x ih =>
    intro c ys fuel k h hf e
    obtain ⟨f, rfl⟩ : ∃ f, fuel = f + 1 := ⟨fuel - 1, by simp at hf; omega⟩
    have hl := IsListChain.lookup_mid (xs ++ [x]) none c ys h
    simp at hl
    have h2 : IsListChain lists none (xs ++ x :: (c :: ys)) := by simpa using h
    have := ih x (c :: ys) f (k + 1) h2 (by simpa using hf) (by simpa using e)
    simp [SkipList.heightLoop, hl, this]
    omega

/-- Every level of a tower is laid out in the node table. -/
theorem IsTower.levelOK {h : Heap} {top : Ptr} {T : List Lvl} (hT : IsTower h top T)
    (xs : List Lvl) (L : Lvl) (ys : List Lvl) (e : T = xs ++ L :: ys) : LevelOK h.nodes L :=
  hT.levels L (by simp [e])

/-- `LinkedList::printData` on a level of a tower returns its keys. -/
theorem IsTower.printLevel {h : Heap} {top : Ptr} {T : List Lvl} (hT : IsTower h top T)
    (xs : List Lvl) (L : Lvl) (ys : List Lvl) (e : T = xs ++ L :: ys) :
    LinkedList.printData h L.addr = some L.keys := by
  have hl := hT.lookup xs L ys e
  have hok := hT.levelOK xs L ys e
  simp only [LinkedList.printData, hl]
  exact printLoop_chain L.cells none _ hok.1 (Nat.lt_succ_of_le hok.2.2.1)

/-- The print loop of the skip list started at a level prints it and the levels below.
-/
theorem IsTower.printLoop_eq {h : Heap} {top : Ptr} {T : List Lvl} (hT : IsTower h top T) :
    ∀ (xs : List Lvl) (L : Lvl) (ys : List Lvl) (fuel : Nat), T = xs ++ L :: ys →
      xs.length + 1 < fuel →
      SkipList.printLoop h fuel (some L.addr) = some (((xs ++ [L]).map Lvl.keys).reverse) := by
  intro xs
  induction xs using List.reverseRecOn with
  | nil =>
    intro L ys fuel e hf
    obtain ⟨f, rfl⟩ : ∃ f, fuel = f + 1 := ⟨fuel - 1, by simp at hf; omega⟩
    have hl := hT.lookup [] L ys e
    have hp := hT.printLevel [] L ys e
    obtain ⟨g, rfl⟩ : ∃ g, f = g + 1 := ⟨f - 1, by simp at hf; omega⟩
    simp [SkipList.printLoop, hl, hp]
  | append_singleton xs x ih =>
    intro L ys fuel e hf
    obtain ⟨f, rfl⟩ : ∃ f, fuel = f + 1 := ⟨fuel - 1, by simp at hf; omega⟩
    have hl := hT.lookup (xs ++ [x]) L ys e
    have hp := hT.printLevel (xs ++ [x]) L ys e
    have := ih x (L :: ys) f (by simpa using e) (by simpa using hf)
    simp at hl
    simp [SkipList.printLoop, hl, hp, this]

/-- `SkipList::printData` returns the key sequences of the tower, top-most first. -/
theorem IsTower.printData_eq {s : SkipList} {T : List Lvl} (hT : IsTower s.heap s.topList T) :
    SkipList.printData s = some ((T.map Lvl.keys).reverse) := by
  obtain ⟨xs, L, e⟩ : ∃ xs L, T = xs ++ [L] := by
    rcases List.eq_nil_or_concat T with h | ⟨xs, L, h⟩
    · exact absurd h hT.nonempty
    · exact ⟨xs, L, by simpa using h⟩
  have ht := hT.top
  have hc := hT.listCount
  rw [e] at ht hc
  simp only [List.getLast?_append, List.getLast?_singleton, List.length_append,
    List.length_singleton] at ht hc
  simp only [SkipList.printData]
  have := hT.printLoop_eq xs L [] (s.heap.lists.length + 1) e (by omega)
  simp at ht
  rw [ht, this, e]

/-- The height measurement of `insert` returns the number of levels and the bottom-most
list. -/
theorem IsTower.heightLoop_eq {h : Heap} {top : Ptr} {T : List Lvl} (hT : IsTower h top T) :
    ∃ (t : Nat) (b : Lvl) (ys : List Lvl), top = some t ∧ T = b :: ys ∧
      SkipList.heightLoop h.lists (h.lists.length + 1) t 1 = some (T.length, b.addr) := by
  obtain ⟨xs, L, e⟩ : ∃ xs L, T = xs ++ [L] := by
    rcases List.eq_nil_or_concat T with h | ⟨xs, L, h⟩
    · exact absurd h hT.nonempty
    · exact ⟨xs, L, by simpa using h⟩
  obtain ⟨b, ys, e2⟩ : ∃ b ys, T = b :: ys := by
    cases T with
    | nil => exact absurd rfl hT.nonempty
    | cons b ys => exact ⟨b, ys, rfl⟩
  have ht := hT.top
  have hc := hT.listCount
  have hs := hT.stack
  rw [e] at ht hc hs
  simp at ht hc
  refine ⟨L.addr, b, ys, ht, e2, ?_⟩
  rw [List.map_append, List.map_cons, List.map_nil] at hs
  have := heightLoop_chain h.lists (ys.map Lvl.sig) b.sig (xs.map Lvl.sig) L.sig []
    (h.lists.length + 1) 1 hs (by simp; omega)
    (by rw [← List.map_cons, ← e2, e]; simp)
  rw [e]
  simpa [Lvl.sig, Nat.add_comm] using this

/-- The guarded insertion changes nothing or adds exactly the new element. -/
theorem insertBy_eq_or_perm {α : Type} (key : α → Int) (new : α) (data : Int) :
    ∀ l : List α, insertBy key new data l = l ∨ (insertBy key new data l).Perm (new :: l)
  | [] => Or.inl rfl
  | [_] => Or.inl rfl
  | a :: b :: rest => by
    simp only [insertBy]
    split_ifs with h1 h2
    · rcases insertBy_eq_or_perm key new data (b :: rest) with h | h
      · exact Or.inl (by rw [h])
      · exact Or.inr ((h.cons a).trans (List.Perm.swap new a _))
    · exact Or.inr (List.Perm.swap new a _)
    · exact Or.inl rfl

/-- The guarded insertion on cells is the guarded insertion on their keys. -/
theorem map_insertBy (n : Nat) (data : Int) :
    ∀ cells : List (Nat × Int),
      (insertBy Prod.snd (n, data) data cells).map Prod.snd
        = insertBy id data data (cells.map Prod.snd)
  | [] => rfl
  | [_] => rfl
  | a :: b :: rest => by
    have ih := map_insertBy n data (b :: rest)
    simp only [insertBy, List.map_cons, id] at ih ⊢
    split_ifs <;> simp [ih]

/-- A level stays laid out in a larger node table that agrees on its addresses. -/
theorem LevelOK.frame_level {nodes nodes1 : List Node} {M : Lvl} (hM : LevelOK nodes M)
    (hf : ∀ a ∈ M.addrs, nodes1[a]? = nodes[a]?) (hl : nodes.length ≤ nodes1.length) :
    LevelOK nodes1 M :=
  ⟨IsLevelChain.frame_nodes _ _ hM.1 fun c hc => hf c.1 (List.mem_map_of_mem _ hc), hM.2.1,
    le_trans hM.2.2.1 hl, fun a ha => lt_of_lt_of_le (hM.2.2.2 a ha) hl⟩

/-- An element of the guarded insertion is the new one or an old one. -/
theorem mem_insertBy {α : Type} (key : α → Int) (new : α) (data : Int) (l : List α) (x : α)
    (hx : x ∈ insertBy key new data l) : x = new ∨ x ∈ l := by
  rcases insertBy_eq_or_perm key new data l with h | h
  · exact Or.inr (h ▸ hx)
  · simpa using h.mem_iff.mp hx

/-- One level step of the loop of `insert`: the search and the insertion on a level of a
tower return, and the heap afterwards holds the tower with that level replaced by its
guarded insertion. -/
theorem IsTower.insertLevel {h : Heap} {top : Ptr} {T : List Lvl} (hT : IsTower h top T)
    (data : Int) (xs : List Lvl) (L : Lvl) (ys : List Lvl) (e : T = xs ++ L :: ys) :
    ∃ (findPtr : Ptr) (h2 : Heap) (r : Ptr) (L1 : Lvl),
      LinkedList.search h (L.cells.head?.map Prod.fst) data = some findPtr ∧
      LinkedList.insert h findPtr data = some (h2, r) ∧
      h2.lists = h.lists ∧ L1.addr = L.addr ∧
      L1.keys = insertBy id data data L.keys ∧
      IsTower h2 top (xs ++ L1 :: ys) := by
  obtain ⟨nodes, lists⟩ := h
  have hok : LevelOK nodes L := hT.levelOK xs L ys e
  have hnd := hT.nodeNodup
  rw [e] at hnd
  simp only [List.map_append, List.map_cons, List.flatten_append, List.flatten_cons] at hnd
  have hnd1 := List.nodup_append.mp hnd
  have hnd2 := List.nodup_append.mp hnd1.2.1
  obtain ⟨loc, nodes1, r, h1, h2, h3, h4, h5⟩ :=
    chain_insert nodes lists data L.cells none (nodes.length + 1) hok.1 hok.2.1
      hnd2.1 hok.2.2.2 (Nat.le_succ_of_le hok.2.2.1)
  have hlen : nodes.length ≤ nodes1.length := by
    have := (insertBy_eq_or_perm Prod.snd (nodes.length, data) data L.cells)
    rcases this with h | h
    · rw [h] at h5; omega
    · rw [h.length_eq] at h5; simp at h5; omega
  have hbound : ∀ M ∈ T, ∀ a ∈ M.addrs, a < nodes.length :=
    fun M hM => (hT.levels M hM).2.2.2
  refine ⟨some loc, ⟨nodes1, lists⟩, r,
    ⟨L.addr, insertBy Prod.snd (nodes.length, data) data L.cells⟩,
    h1, h2, rfl, rfl, map_insertBy _ _ _, ?_⟩
  have hsig : (xs ++ (⟨L.addr, insertBy Prod.snd (nodes.length, data) data L.cells⟩ : Lvl)
      :: ys).map Lvl.sig = T.map Lvl.sig := by
    simp [e, Lvl.sig, head?_insertBy]
  have haddr : (xs ++ (⟨L.addr, insertBy Prod.snd (nodes.length, data) data L.cells⟩ : Lvl)
      :: ys).map Lvl.addr = T.map Lvl.addr := by
    simp [e]
  refine ⟨?_, by simp, ?_, ?_, ?_, ?_, ?_, ?_⟩
  · rw [haddr]; exact hT.top
  · rw [hsig]; exact hT.stack
  · rw [haddr]; exact hT.listNodup
  · rw [haddr]; exact hT.listBound
  · have := hT.listCount
    simpa [e] using this
  · intro M hM
    simp only [List.mem_append, List.mem_cons] at hM
    rcases hM with hM | rfl | hM
    · refine (hT.levels M (by simp [e, hM])).frame_level (fun a ha => h4 a ?_ ?_) hlen
      · exact hbound M (by simp [e, hM]) a ha
      · intro hmem
        exact hnd1.2.2 (List.mem_flatten.mpr ⟨M.addrs, List.mem_map_of_mem _ hM, ha⟩)
          (List.mem_append_left _ hmem)
    · refine ⟨h3, insertBy_ne_nil _ _ _ _ hok.2.1, ?_, ?_⟩
      · have hk : L.cells.length ≤ nodes.length := hok.2.2.1
        simp only at h5 ⊢
        omega
      · intro a ha
        simp only [Lvl.addrs, List.mem_map] at ha
        obtain ⟨c, hc, rfl⟩ := ha
        rcases mem_insertBy _ _ _ _ _ hc with rfl | hc
        · simp only at h5 ⊢
          rcases insertBy_eq_or_perm Prod.snd (nodes.length, data) data L.cells with h | h
          · rw [h] at hc
            exact lt_of_lt_of_le (hok.2.2.2 _ (List.mem_map_of_mem _ hc)) hlen
          · rw [h.length_eq] at h5; simp at h5; omega
        · exact lt_of_lt_of_le (hok.2.2.2 _ (List.mem_map_of_mem _ hc)) hlen
    · refine (hT.levels M (by simp [e, hM])).frame_level (fun a ha => h4 a ?_ ?_) hlen
      · exact hbound M (by simp [e, hM]) a ha
      · intro hmem
        exact hnd2.2.2 hmem (List.mem_flatten.mpr ⟨M.addrs, List.mem_map_of_mem _ hM, ha⟩)
  · simp only [List.map_append, List.map_cons, List.flatten_append, List.flatten_cons]
    rcases insertBy_eq_or_perm Prod.snd (nodes.length, data) data L.cells with h | h
    · simp only [Lvl.addrs, h]
      exact hnd
    · have hp : ((insertBy Prod.snd (nodes.length, data) data L.cells).map Prod.fst).Perm
          (nodes.length :: L.addrs) := by
        simpa [Lvl.addrs] using h.map Prod.fst
      have hp2 := (((hp.append_right (ys.map Lvl.addrs).flatten).append_left
        (xs.map Lvl.addrs).flatten).trans List.perm_middle)
      refine hp2.nodup_iff.mpr (List.nodup_cons.mpr ⟨?_, hnd⟩)
      intro hmem
      have : nodes.length ∈ (T.map Lvl.addrs).flatten := by
        rw [e]
        simpa using hmem
      obtain ⟨l, hl, hal⟩ := List.mem_flatten.mp this
      obtain ⟨M, hM, rfl⟩ := List.mem_map.mp hl
      exact absurd (hbound M hM _ hal) (lt_irrefl _)

/-- Putting a new list on top of a stack. -/
theorem IsListChain.snoc {lists lists1 : List LinkedList} (c nw : Nat × Ptr) :
    ∀ (xs : List (Nat × Ptr)) (d : Ptr), IsListChain lists d (xs ++ [c]) →
      (∀ x ∈ xs, lists1[x.1]? = lists[x.1]?) →
      (∀ dn, lists[c.1]? = some ⟨none, dn, c.2⟩ →
        lists1[c.1]? = some ⟨some nw.1, dn, c.2⟩) →
      lists1[nw.1]? = some ⟨none, some c.1, nw.2⟩ →
      IsListChain lists1 d (xs ++ [c, nw])
  | [], d, h, _, hc, hn => ⟨hc d h.1, hn, trivial⟩
  | x :: xs, d, h, hf, hc, hn => by
    refine ⟨?_, IsListChain.snoc c nw xs (some x.1) h.2
      (fun y hy => hf y (List.mem_cons_of_mem _ hy)) hc hn⟩
    rw [hf x (List.mem_cons_self _ _), h.1]
    cases xs <;> rfl

/-- The first of two elements allocated at the end of a table. -/
theorem getElem?_append_pair_left {α : Type} (l : List α) (a b : α) :
    (l ++ [a, b])[l.length]? = some a := by
  rw [List.getElem?_append_right (Nat.le_refl _)]
  simp

/-- The second of two elements allocated at the end of a table. -/
theorem getElem?_append_pair_right {α : Type} (l : List α) (a b : α) :
    (l ++ [a, b])[l.length + 1]? = some b := by
  rw [List.getElem?_append_right (Nat.le_succ _)]
  simp

/-- The two nodes that the `LinkedList` constructor allocates form a level. -/
theorem LevelOK.fresh (nodes : List Node) (addr : Nat) (minVal maxVal : Int) :
    LevelOK (nodes ++ [Node.mk minVal (some (nodes.length + 1)) none none none,
        Node.mk maxVal none (some nodes.length) none none])
      ⟨addr, [(nodes.length, minVal), (nodes.length + 1, maxVal)]⟩ := by
  refine ⟨⟨?_, ?_, trivial⟩, by simp, by simp, ?_⟩
  · exact getElem?_append_pair_left _ _ _
  · exact getElem?_append_pair_right _ _ _
  · intro a ha
    simp [Lvl.addrs] at ha
    rcases ha with rfl | rfl <;> simp

/-- The `SkipList` constructor returns a tower of one level holding the two bounds. -/
theorem IsTower.new_eq (h : Heap) (rands : List Nat) (minVal maxVal : Int) :
    ∃ s, SkipList.new h rands minVal maxVal = some s ∧ s.rands = rands ∧
      IsTower s.heap s.topList
        [⟨h.lists.length, [(h.nodes.length, minVal), (h.nodes.length + 1, maxVal)]⟩] := by
  refine ⟨⟨⟨h.nodes ++ [Node.mk minVal (some (h.nodes.length + 1)) none none none,
        Node.mk maxVal none (some h.nodes.length) none none],
      h.lists ++ [⟨none, none, some h.nodes.length⟩]⟩, some h.lists.length, rands⟩,
    ?_, rfl, ?_⟩
  · simp [SkipList.new, LinkedList.new, Node.new]
  · refine ⟨rfl, by simp, ?_, by simp, by simp, by simp, ?_, ?_⟩
    · exact ⟨by simp [Lvl.sig], trivial⟩
    · intro L hL
      simp only [List.mem_singleton] at hL
      subst hL
      exact LevelOK.fresh _ _ _ _
    · simp [Lvl.addrs]

/-- A non-empty list has a last element. -/
theorem exists_concat_of_ne_nil {α : Type} (T : List α) (h : T ≠ []) :
    ∃ xs L, T = xs ++ [L] := by
  rcases List.eq_nil_or_concat T with h0 | ⟨xs, L, h1⟩
  · exact absurd h0 h
  · exact ⟨xs, L, by simpa using h1⟩

/-- Every node of a tower is allocated. -/
theorem IsTower.nodeBound {h : Heap} {top : Ptr} {T : List Lvl} (hT : IsTower h top T)
    (a : Nat) (ha : a ∈ (T.map Lvl.addrs).flatten) : a < h.nodes.length := by
  obtain ⟨l, hl, hal⟩ := List.mem_flatten.mp ha
  obtain ⟨M, hM, rfl⟩ := List.mem_map.mp hl
  exact (hT.levels M hM).2.2.2 a hal

/-- The branch `if (i > height)` returns and puts one level with the sentinels
`INT_MIN`, `INT_MAX` on top of the tower. -/
theorem IsTower.grow_eq {h : Heap} {top : Ptr} {T : List Lvl} (hT : IsTower h top T) :
    ∃ (h1 : Heap) (t1 : Nat), SkipList.grow h top = some (h1, some t1) ∧
      IsTower h1 (some t1)
        (T ++ [⟨h.lists.length,
          [(h.nodes.length, INT_MIN), (h.nodes.length + 1, INT_MAX)]⟩]) := by
  obtain ⟨nodes, lists⟩ := h
  obtain ⟨xs, L, e⟩ := exists_concat_of_ne_nil T hT.nonempty
  have hl : lists[L.addr]? = some ⟨none, xs.getLast?.map Lvl.addr,
      L.cells.head?.map Prod.fst⟩ := hT.lookup xs L [] e
  have htop : top = some L.addr := by
    rw [hT.top, e]
    simp
  have hLlt : L.addr < lists.length := hT.listBound _ (by simp [e])
  have hLne : L.addr ≠ lists.length := Nat.ne_of_lt hLlt
  subst htop
  refine ⟨⟨nodes ++ [Node.mk INT_MIN (some (nodes.length + 1)) none none none,
        Node.mk INT_MAX none (some nodes.length) none none],
      (((lists ++ [LinkedList.mk none none (some nodes.length)]).set lists.length
          (LinkedList.mk none (some L.addr) (some nodes.length))).set L.addr
          (LinkedList.mk (some lists.length) (xs.getLast?.map Lvl.addr)
            (L.cells.head?.map Prod.fst))).set
        lists.length (LinkedList.mk none (some L.addr) (some nodes.length))⟩,
      lists.length, ?_, ?_⟩
  · simp [SkipList.grow, LinkedList.new, Node.new, setUp, List.getElem?_set_ne hLne.symm,
      List.getElem?_set_ne hLne, List.getElem?_append_left hLlt, hl]
  · have hT1 := hT
    rw [e] at hT1
    have hxs : ∀ M ∈ xs, M.addr < lists.length ∧ M.addr ≠ L.addr := by
      intro M hM
      refine ⟨hT1.listBound _ (by simp; exact Or.inl ⟨M, hM, rfl⟩), ?_⟩
      have hn := hT1.listNodup
      rw [List.map_append, List.nodup_append] at hn
      intro h
      exact hn.2.2 (List.mem_map_of_mem _ hM) (by simp [h])
    refine ⟨by simp, by simp, ?_, ?_, ?_, ?_, ?_, ?_⟩
    · rw [e]
      have hs := hT1.stack
      simp only [List.map_append, List.map_cons, List.map_nil, List.append_assoc,
        List.singleton_append] at hs ⊢
      refine IsListChain.snoc L.sig _ (xs.map Lvl.sig) none hs ?_ ?_ ?_
      · intro x hx
        obtain ⟨M, hM, rfl⟩ := List.mem_map.mp hx
        have := hxs M hM
        simp only [Lvl.sig]
        rw [List.getElem?_set_ne (Nat.ne_of_gt this.1), List.getElem?_set_ne this.2.symm,
          List.getElem?_set_ne (Nat.ne_of_gt this.1), List.getElem?_append_left this.1]
      · intro dn hdn
        have hdn1 : lists[L.addr]? = some ⟨none, dn, L.sig.2⟩ := hdn
        rw [hl] at hdn1
        simp only [Option.some.injEq, LinkedList.mk.injEq, true_and] at hdn1
        simp only [Lvl.sig]
        rw [List.getElem?_set_ne hLne.symm, List.getElem?_set_self (by simp; omega), ← hdn1.1]
      · simp only [Lvl.sig]
        rw [List.getElem?_set_self (by simp)]
        rfl
    · rw [List.map_append, List.nodup_append]
      refine ⟨hT.listNodup, by simp, ?_⟩
      intro a ha hb
      simp only [List.map_cons, List.map_nil, List.mem_singleton] at hb
      exact absurd (hT.listBound a ha) (by simp [hb])
    · intro a ha
      simp only [List.map_append, List.map_cons, List.map_nil, List.mem_append,
        List.mem_singleton] at ha
      simp only [List.length_set, List.length_append, List.length_singleton]
      rcases ha with ha | rfl
      · exact Nat.lt_succ_of_lt (hT.listBound a ha)
      · exact Nat.lt_succ_self _
    · have := hT.listCount
      simp only [List.length_set, List.length_append, List.length_singleton] at this ⊢
      omega
    · intro M hM
      simp only [List.mem_append, List.mem_singleton] at hM
      rcases hM with hM | rfl
      · exact (hT.levels M hM).frame_level
          (fun a ha => List.getElem?_append_left ((hT.levels M hM).2.2.2 a ha)) (by simp)
      · exact LevelOK.fresh _ _ _ _
    · simp only [List.map_append, List.map_cons, List.map_nil, List.flatten_append,
        List.flatten_cons, List.flatten_nil, List.append_nil]
      rw [List.nodup_append]
      refine ⟨hT.nodeNodup, by simp [Lvl.addrs], ?_⟩
      intro a ha hb
      have hlt : a < nodes.length := hT.nodeBound a ha
      simp [Lvl.addrs] at hb
      omega

/-- The node of a cell of a chain carries its key and has no `up` and no `down` link. -/
theorem IsLevelChain.mem_node {nodes : List Node} :
    ∀ (cells : List (Nat × Int)) (prev : Ptr) (c : Nat × Int), IsLevelChain nodes prev cells →
      c ∈ cells → ∃ nx pv, nodes[c.1]? = some ⟨c.2, nx, pv, none, none⟩
  | [], _, _, _, hc => by simp at hc
  | a :: rest, _, c, h, hc => by
    rcases List.mem_cons.mp hc with rfl | hc
    · exact ⟨_, _, h.1⟩
    · exact IsLevelChain.mem_node rest _ c h.2 hc

/-- The inner loop of `SkipList::search` on a chain stops at the cell where the scan of
the cells stops. -/
theorem searchRight_chain {nodes : List Node} (data : Int) :
    ∀ (cells : List (Nat × Int)) (prev : Ptr) (fuel : Nat) (a : Nat × Int)
      (rest : List (Nat × Int)),
      IsLevelChain nodes prev cells → cells = a :: rest → cells.length ≤ fuel →
      ∃ c, scanBy Prod.snd data cells = some c ∧ c ∈ cells ∧
        SkipList.searchRight nodes data fuel a.1 = some c.1
  | [], _, _, _, _, _, e, _ => by simp at e
  | [a], _, fuel, a1, rest, hc, e, hf => by
    obtain ⟨f, rfl⟩ : ∃ f, fuel = f + 1 := ⟨fuel - 1, by simp at hf; omega⟩
    simp only [List.cons.injEq] at e
    obtain ⟨rfl, -⟩ := e
    have ha := hc.1
    simp only [List.head?_nil, Option.map_none'] at ha
    exact ⟨a, rfl, by simp, by simp [SkipList.searchRight, ha]⟩
  | a :: b :: rest, _, fuel, a1, rest1, hc, e, hf => by
    obtain ⟨f, rfl⟩ : ∃ f, fuel = f + 1 := ⟨fuel - 1, by simp at hf; omega⟩
    simp only [List.cons.injEq] at e
    obtain ⟨rfl, -⟩ := e
    have ha := hc.1
    have hb := hc.2.1
    simp only [List.head?_cons, Option.map_some'] at ha
    by_cases hle : b.2 ≤ data
    · obtain ⟨c, h1, h2, h3⟩ := searchRight_chain data (b :: rest) (some a.1) f b rest hc.2 rfl
        (by simpa using hf)
      refine ⟨c, by simp [scanBy, hle, h1], List.mem_cons_of_mem _ h2, ?_⟩
      simp [SkipList.searchRight, ha, hb, hle, h3]
    · exact ⟨a, by simp [scanBy, hle], by simp, by simp [SkipList.searchRight, ha, hb, hle]⟩

/-- The scan on cells is the scan on their keys. -/
theorem map_scanBy (data : Int) :
    ∀ cells : List (Nat × Int),
      (scanBy Prod.snd data cells).map Prod.snd = scanBy id data (cells.map Prod.snd)
  | [] => rfl
  | [_] => rfl
  | a :: b :: rest => by
    have ih := map_scanBy data (b :: rest)
    simp only [scanBy, List.map_cons, id] at ih ⊢
    split_ifs
    · exact ih
    · rfl

/-- `SkipList::search` on a tower returns the node where the scan of the top-most level
stops. -/
theorem IsTower.search_eq {s : SkipList} {T : List Lvl} (hT : IsTower s.heap s.topList T)
    (data : Int) (xs : List Lvl) (L : Lvl) (e : T = xs ++ [L]) :
    ∃ c, c ∈ L.cells ∧ scanBy Prod.snd data L.cells = some c ∧
      SkipList.search s data = some c.1 ∧
      ∃ nx pv, s.heap.nodes[c.1]? = some ⟨c.2, nx, pv, none, none⟩ := by
  have hl := hT.lookup xs L [] e
  have hok := hT.levelOK xs L [] e
  have htop : s.topList = some L.addr := by
    rw [hT.top, e]
    simp
  obtain ⟨a, rest, hcells⟩ : ∃ a rest, L.cells = a :: rest := by
    cases hc : L.cells with
    | nil => exact absurd hc hok.2.1
    | cons a rest => exact ⟨a, rest, rfl⟩
  obtain ⟨c, h1, h2, h3⟩ := searchRight_chain data L.cells none (s.heap.nodes.length + 1) a rest
    hok.1 hcells (Nat.le_succ_of_le hok.2.2.1)
  obtain ⟨nx, pv, hn⟩ := IsLevelChain.mem_node L.cells none c hok.1 h2
  refine ⟨c, h2, h1, ?_, nx, pv, hn⟩
  simp [SkipList.search, htop, hl, hcells, SkipList.searchLoop, h3, hn]

/-- Assigning the element behind a list segment. -/
theorem set_length_append {α : Type} (x b : α) (C : List α) :
    ∀ A : List α, (A ++ b :: C).set A.length x = A ++ x :: C
  | [] => rfl
  | a :: A => by simp [set_length_append x b C A]

/-- Reading the element behind a list segment. -/
theorem getElem?_append_cons_length {α : Type} (b : α) (C : List α) (A : List α) :
    (A ++ b :: C)[A.length]? = some b := by
  rw [List.getElem?_append_right (Nat.le_refl _)]
  simp

/-- The loop of `insert` on a tower, started at the level behind `xs`, returns a tower
whose key sequences are those of `keysLoop`. -/
theorem IsTower.insertLoop_eq (i height : Nat) (data : Int) :
    ∀ (n : Nat) (h : Heap) (top : Ptr) (xs ys : List Lvl), IsTower h top (xs ++ ys) →
      ((i > height ∧ ys ≠ []) ∨ (¬ i > height ∧ n ≤ ys.length)) →
      ∃ h1 top1 bl1 T1,
        SkipList.insertLoop i height data n h top (ys.head?.map Lvl.addr)
          = some (h1, top1, bl1) ∧
        IsTower h1 top1 T1 ∧
        T1.map Lvl.keys
          = keysLoop (decide (i > height)) data n xs.length ((xs ++ ys).map Lvl.keys)
  | 0, h, top, xs, ys, hT, _ => ⟨h, top, _, xs ++ ys, rfl, hT, rfl⟩
  | n + 1, h, top, xs, ys, hT, hc => by
    obtain ⟨L, ys0, rfl⟩ : ∃ L ys0, ys = L :: ys0 := by
      cases ys with
      | nil => simp at hc
      | cons L ys0 => exact ⟨L, ys0, rfl⟩
    obtain ⟨h1, top1, ys1, hg, hT1, hk, hc1⟩ : ∃ h1 top1 ys1,
        (if i > height then SkipList.grow h top else some (h, top)) = some (h1, top1) ∧
        IsTower h1 top1 (xs ++ L :: ys1) ∧
        (xs ++ L :: ys1).map Lvl.keys
          = (if decide (i > height) = true
              then (xs ++ L :: ys0).map Lvl.keys ++ [[INT_MIN, INT_MAX]]
              else (xs ++ L :: ys0).map Lvl.keys) ∧
        ((i > height ∧ ys1 ≠ []) ∨ (¬ i > height ∧ n ≤ ys1.length)) := by
      by_cases hi : i > height
      · obtain ⟨h1, t1, hg, hT1⟩ := hT.grow_eq
        exact ⟨h1, some t1, ys0 ++ [_], by simp [hi, hg], by simpa using hT1,
          by simp [hi, Lvl.keys], Or.inl ⟨hi, by simp⟩⟩
      · refine ⟨h, top, ys0, by simp [hi], hT, by simp [hi], Or.inr ⟨hi, ?_⟩⟩
        rcases hc with hc | hc
        · exact absurd hc.1 hi
        · simpa using hc.2
    obtain ⟨findPtr, h2, r, L1, hs, hins, hlists, haddr, hkeys, hT2⟩ :=
      hT1.insertLevel data xs L ys1 rfl
    have hl := hT1.lookup xs L ys1 rfl
    have hT2' : IsTower h2 top1 ((xs ++ [L1]) ++ ys1) := by simpa using hT2
    obtain ⟨h3, top3, bl3, T3, hloop, hT3, hk3⟩ :=
      IsTower.insertLoop_eq i height data n h2 top1 (xs ++ [L1]) ys1 hT2' hc1
    refine ⟨h3, top3, bl3, T3, ?_, hT3, ?_⟩
    · simp only [SkipList.insertLoop, hg, List.head?_cons, Option.map_some', hl, hs, hins,
        hlists]
      exact hloop
    · rw [hk3]
      simp only [keysLoop]
      rw [← hk]
      simp only [List.map_append, List.map_cons, List.map_nil, List.length_append,
        List.length_singleton, List.append_assoc, List.singleton_append]
      have hlen : xs.length = (xs.map Lvl.keys).length := by simp
      rw [hlen, getElem?_append_cons_length, set_length_append, hkeys]
      simp

/-- `insert` on a tower returns: the unchanged skip list and `nullptr` if the scan of
the top-most level stops at `data`, and otherwise a tower whose key sequences are those
of `keysLoop` together with the unassigned local. -/
theorem IsTower.insert_cases {s : SkipList} {T : List Lvl} (hT : IsTower s.heap s.topList T)
    (data : Int) :
    (scanBy id data ((T.map Lvl.keys).getLast?.getD []) = some data →
      SkipList.insert s data = some (s, PtrVal.val none)) ∧
    (scanBy id data ((T.map Lvl.keys).getLast?.getD []) ≠ some data →
      ∃ s1 T1, SkipList.insert s data = some (s1, PtrVal.uninit) ∧
        IsTower s1.heap s1.topList T1 ∧
        s1.rands = (drawHeight s.rands 1).2 ∧
        T1.map Lvl.keys = keysLoop (decide ((drawHeight s.rands 1).1 > T.length)) data
          (drawHeight s.rands 1).1 0 (T.map Lvl.keys)) := by
  obtain ⟨xs, L, e⟩ := exists_concat_of_ne_nil T hT.nonempty
  obtain ⟨c, -, hscan, hsearch, nx, pv, hnode⟩ := hT.search_eq data xs L e
  have hk : scanBy id data ((T.map Lvl.keys).getLast?.getD []) = some c.2 := by
    have := map_scanBy data L.cells
    rw [hscan] at this
    rw [e]
    simpa [Lvl.keys] using this.symm
  rw [hk]
  constructor
  · intro hd
    simp only [Option.some.injEq] at hd
    simp [SkipList.insert, hsearch, hnode, hd]
  · intro hd
    have hd1 : ¬ c.2 = data := fun h => hd (by rw [h])
    obtain ⟨t, b, ys, htop, eT, hh⟩ := hT.heightLoop_eq
    have hcond : ((drawHeight s.rands 1).1 > T.length ∧ T ≠ []) ∨
        (¬ (drawHeight s.rands 1).1 > T.length ∧ (drawHeight s.rands 1).1 ≤ T.length) := by
      by_cases hi : (drawHeight s.rands 1).1 > T.length
      · exact Or.inl ⟨hi, hT.nonempty⟩
      · exact Or.inr ⟨hi, by omega⟩
    obtain ⟨h1, top1, bl1, T1, hloop, hT1, hkeys⟩ :=
      IsTower.insertLoop_eq (drawHeight s.rands 1).1 T.length data (drawHeight s.rands 1).1
        s.heap s.topList [] T hT hcond
    have hb : T.head?.map Lvl.addr = some b.addr := by rw [eT]; rfl
    rw [hb] at hloop
    refine ⟨⟨h1, top1, (drawHeight s.rands 1).2⟩, T1, ?_, hT1, rfl, by simpa using hkeys⟩
    simp [SkipList.insert, hsearch, hnode, hd1, htop, hh]
    rw [htop] at hloop
    simp [hloop]

/-- The guarded insertion keeps a sequence strictly increasing. -/
theorem sorted_insertBy (data : Int) :
    ∀ l : List Int, l.Sorted (· < ·) → (insertBy id data data l).Sorted (· < ·)
  | [], h => h
  | [_], h => h
  | a :: b :: rest, h => by
    have h1 := List.pairwise_cons.mp h
    have h2 := List.pairwise_cons.mp h1.2
    simp only [insertBy, id]
    split_ifs with hle hg
    · refine List.pairwise_cons.mpr ⟨?_, sorted_insertBy data (b :: rest) h1.2⟩
      intro x hx
      rcases mem_insertBy _ _ _ _ _ hx with rfl | hx
      · exact lt_of_lt_of_le (h1.1 b (by simp)) hle
      · exact h1.1 x hx
    · have hdb : data < b := lt_of_not_ge hle
      refine List.pairwise_cons.mpr ⟨?_, List.pairwise_cons.mpr ⟨?_, h1.2⟩⟩
      · intro x hx
        rcases List.mem_cons.mp hx with rfl | hx
        · exact hg.1
        · exact h1.1 x hx
      · intro x hx
        rcases List.mem_cons.mp hx with rfl | hx
        · exact hdb
        · exact lt_trans hdb (h2.1 x hx)
    · exact h

/-- The number of levels after the loop of `insert`. -/
theorem length_keysLoop (g : Bool) (data : Int) :
    ∀ (n p : Nat) (K : List (List Int)),
      (keysLoop g data n p K).length = K.length + (if g = true then n else 0)
  | 0, _, K => by simp [keysLoop]
  | n + 1, p, K => by
    simp only [keysLoop]
    rw [length_keysLoop g data n]
    cases g <;> simp
    omega

/-- The loop of `insert` keeps every level strictly increasing. -/
theorem sorted_keysLoop (g : Bool) (data : Int) :
    ∀ (n p : Nat) (K : List (List Int)), (∀ l ∈ K, l.Sorted (· < ·)) →
      ∀ l ∈ keysLoop g data n p K, l.Sorted (· < ·)
  | 0, _, K, h => h
  | n + 1, p, K, h => by
    simp only [keysLoop]
    have hmm : INT_MIN < INT_MAX := by decide
    have h1 : ∀ l ∈ (if g = true then K ++ [[INT_MIN, INT_MAX]] else K),
        l.Sorted (· < ·) := by
      intro l hl
      split_ifs at hl
      · rcases List.mem_append.mp hl with hl | hl
        · exact h l hl
        · simp only [List.mem_singleton] at hl
          subst hl
          simp [List.Sorted, hmm]
      · exact h l hl
    refine sorted_keysLoop g data n (p + 1) _ ?_
    intro l hl
    rcases List.mem_or_eq_of_mem_set hl with hl | rfl
    · exact h1 l hl
    · refine sorted_insertBy data _ ?_
      cases hp : (if g = true then K ++ [[INT_MIN, INT_MAX]] else K)[p]? with
      | none => simp [List.Sorted]
      | some x => exact h1 x (List.getElem?_mem hp)

/-- `insert` keeps every level strictly increasing. -/
theorem sorted_keysInsert (K : List (List Int)) (rands : List Nat) (data : Int)
    (h : ∀ l ∈ K, l.Sorted (· < ·)) :
    ∀ l ∈ keysInsert K rands data, l.Sorted (· < ·) := by
  unfold keysInsert
  split_ifs
  · exact h
  · exact sorted_keysLoop _ _ _ _ _ h

/-- `insert` on a tower returns a tower whose key sequences are those of `keysInsert`.
-/
theorem IsTower.insert_keys {s : SkipList} {T : List Lvl} (hT : IsTower s.heap s.topList T)
    (data : Int) :
    ∃ s1 r T1, SkipList.insert s data = some (s1, r) ∧ IsTower s1.heap s1.topList T1 ∧
      T1.map Lvl.keys = keysInsert (T.map Lvl.keys) s.rands data := by
  have h := hT.insert_cases data
  by_cases hd : scanBy id data ((T.map Lvl.keys).getLast?.getD []) = some data
  · exact ⟨s, _, T, h.1 hd, hT, by rw [keysInsert, if_pos hd]⟩
  · obtain ⟨s1, T1, h1, h2, -, h4⟩ := h.2 hd
    refine ⟨s1, _, T1, h1, h2, ?_⟩
    rw [keysInsert, if_neg hd, h4, List.length_map]

/-- Induction over a run of `insert` calls: the run returns a tower, and a property of
the keys inserted so far and the key sequences that every call keeps holds at the end.
-/
theorem IsTower.insertAll_induct (Q : Int → Prop) (P : List Int → List (List Int) → Prop)
    (hstep : ∀ done K rands data, Q data → P done K →
      P (done ++ [data]) (keysInsert K rands data)) :
    ∀ (keys : List Int) (s : SkipList) (T : List Lvl) (done : List Int),
      (∀ k ∈ keys, Q k) → IsTower s.heap s.topList T → P done (T.map Lvl.keys) →
      ∃ s1 T1, SkipList.insertAll s keys = some s1 ∧ IsTower s1.heap s1.topList T1 ∧
        P (done ++ keys) (T1.map Lvl.keys)
  | [], s, T, done, _, hT, hP => ⟨s, T, rfl, hT, by simpa using hP⟩
  | k :: ks, s, T, done, hQ, hT, hP => by
    obtain ⟨s1, r, T1, h1, h2, h3⟩ := hT.insert_keys k
    have hP1 := hstep done _ s.rands k (hQ k (by simp)) hP
    rw [← h3] at hP1
    obtain ⟨s2, T2, h4, h5, h6⟩ := IsTower.insertAll_induct Q P hstep ks s1 T1 (done ++ [k])
      (fun x hx => hQ x (List.mem_cons_of_mem _ hx)) h2 hP1
    exact ⟨s2, T2, by simp [SkipList.insertAll, h1, h4], h5, by simpa using h6⟩

/-- The guarded insertion changes nothing in an increasing sequence that starts at or
above `data`. -/
theorem insertBy_of_head_ge (data : Int) :
    ∀ l : List Int, l.Sorted (· < ·) → (∀ a ∈ l.head?, data ≤ a) →
      insertBy id data data l = l
  | [], _, _ => rfl
  | [_], _, _ => rfl
  | a :: b :: rest, h, ha => by
    have h1 := List.pairwise_cons.mp h
    have hda : data ≤ a := ha a (by simp)
    have hab : a < b := h1.1 b (by simp)
    have h2 : ¬ b ≤ data := by omega
    have h3 : ¬ (a < data ∧ b ≥ data) := by omega
    simp [insertBy, h2, h3]

/-- The guarded insertion of a key strictly between the ends of an increasing sequence
keeps the ends and adds the key to what is between them. -/
theorem insertBy_bounded (data hi : Int) :
    ∀ (ks : List Int) (lo : Int), (lo :: ks ++ [hi]).Sorted (· < ·) → lo < data →
      data < hi →
      ∃ ks1, insertBy id data data (lo :: ks ++ [hi]) = lo :: ks1 ++ [hi] ∧
        ∀ x, x ∈ ks1 ↔ x ∈ ks ∨ x = data
  | [], lo, _, h1, h2 => by
    refine ⟨[data], ?_, by simp⟩
    have h3 : ¬ hi ≤ data := by omega
    have h4 : lo < data ∧ hi ≥ data := by omega
    simp [insertBy, h3, h4]
  | k :: ks, lo, h, h1, h2 => by
    have hs := List.pairwise_cons.mp h
    have hlk : lo < k := hs.1 k (by simp)
    rcases lt_trichotomy k data with hk | hk | hk
    · obtain ⟨ks1, e, hm⟩ := insertBy_bounded data hi ks k hs.2 hk h2
      refine ⟨k :: ks1, ?_, ?_⟩
      · have hle : k ≤ data := le_of_lt hk
        simp only [List.cons_append, insertBy, id, hle, if_true] at e ⊢
        exact congrArg (List.cons lo) e
      · intro x
        simp only [List.mem_cons, hm]
        tauto
    · refine ⟨k :: ks, ?_, ?_⟩
      · have hle : k ≤ data := le_of_eq hk
        have := insertBy_of_head_ge data (k :: ks ++ [hi]) hs.2 (by simp [hk])
        simp only [List.cons_append, insertBy, id, hle, if_true] at this ⊢
        exact congrArg (List.cons lo) this
      · intro x
        simp only [List.mem_cons]
        constructor
        · exact Or.inl
        · rintro (h | h)
          · exact h
          · exact Or.inl (h.trans hk.symm)
    · refine ⟨data :: k :: ks, ?_, ?_⟩
      · have h3 : ¬ k ≤ data := by omega
        have h4 : lo < data ∧ k ≥ data := by omega
        simp [insertBy, h3, h4]
      · intro x
        simp only [List.mem_cons]
        tauto

/-- The scan stops at an element of the sequence. -/
theorem scanBy_mem {α : Type} (key : α → Int) (data : Int) :
    ∀ (l : List α) (c : α), scanBy key data l = some c → c ∈ l
  | [], _, h => by simp [scanBy] at h
  | [a], c, h => by
    simp only [scanBy, Option.some.injEq] at h
    simp [h]
  | a :: b :: rest, c, h => by
    simp only [scanBy] at h
    split_ifs at h
    · exact List.mem_cons_of_mem _ (scanBy_mem key data (b :: rest) c h)
    · simp only [Option.some.injEq] at h
      simp [h]

/-- The promotion draw never returns less than it starts with. -/
theorem drawHeight_ge : ∀ (rands : List Nat) (i : Nat), i ≤ (drawHeight rands i).1
  | [], _ => le_refl _
  | r :: rest, i => by
    simp only [drawHeight]
    split_ifs
    · exact le_trans (Nat.le_succ i) (drawHeight_ge rest (i + 1))
    · exact le_refl _

/-- The iterations of the loop of `insert` above the bottom-most level keep the shape
`BottomIs` once `data` is among the keys of the bottom-most level. -/
theorem BottomIs.loop {lo hi : Int} {ks : List Int} (g : Bool) (data : Int)
    (hd : data ∈ ks) :
    ∀ (n p : Nat) (K : List (List Int)), BottomIs lo hi ks K →
      BottomIs lo hi ks (keysLoop g data n (p + 1) K)
  | 0, _, _, h => h
  | n + 1, p, K, h => by
    simp only [keysLoop]
    refine BottomIs.loop g data hd n (p + 1) _ ?_
    obtain ⟨B, rest, rfl⟩ : ∃ B rest, K = B :: rest := by
      cases K with
      | nil => simp [BottomIs] at h
      | cons B rest => exact ⟨B, rest, rfl⟩
    obtain ⟨rest1, e1, h1⟩ : ∃ rest1,
        (if g = true then (B :: rest) ++ [[INT_MIN, INT_MAX]] else B :: rest) = B :: rest1 ∧
        ∀ U ∈ rest1, ∀ x ∈ U, x = INT_MIN ∨ x = INT_MAX ∨ x ∈ ks := by
      cases g
      · exact ⟨rest, by simp, h.2⟩
      · refine ⟨rest ++ [[INT_MIN, INT_MAX]], by simp, ?_⟩
        intro U hU x hx
        rcases List.mem_append.mp hU with hU | hU
        · exact h.2 U hU x hx
        · simp only [List.mem_singleton] at hU
          subst hU
          simp only [List.mem_cons, List.mem_singleton, List.not_mem_nil, or_false] at hx
          tauto
    rw [e1]
    simp only [List.set_cons_succ, List.getElem?_cons_succ]
    refine ⟨h.1, ?_⟩
    intro U hU x hx
    simp only [List.tail_cons] at hU
    rcases List.mem_or_eq_of_mem_set hU with hU | rfl
    · exact h1 U hU x hx
    · rcases mem_insertBy _ _ _ _ _ hx with rfl | hx
      · exact Or.inr (Or.inr hd)
      · cases hp : rest1[p]? with
        | none => simp [hp] at hx
        | some V =>
          rw [hp] at hx
          exact h1 V (List.getElem?_mem hp) x hx

/-- `insert` of a key strictly within the bounds keeps `BottomInv` and adds the key to
the keys inserted so far. -/
theorem BottomInv.step {lo hi : Int} (hlo : INT_MIN ≤ lo) (hhi : hi ≤ INT_MAX)
    (done : List Int) (K : List (List Int)) (rands : List Nat) (data : Int)
    (hd : lo < data ∧ data < hi) (h : BottomInv lo hi done K) :
    BottomInv lo hi (done ++ [data]) (keysInsert K rands data) := by
  obtain ⟨ks, hB, hs, hm⟩ := h
  obtain ⟨B, rest, rfl⟩ : ∃ B rest, K = B :: rest := by
    cases K with
    | nil => simp [BottomIs] at hB
    | cons B rest => exact ⟨B, rest, rfl⟩
  have hBe : B = lo :: ks ++ [hi] := by simpa using hB.1
  unfold keysInsert
  split_ifs with hdup
  · have hmem := scanBy_mem id data _ _ hdup
    have hks : data ∈ ks := by
      by_cases hr : rest = []
      · subst hr
        simp only [List.getLast?_singleton, Option.getD_some, hBe, List.cons_append,
          List.mem_cons, List.mem_append, List.mem_singleton, List.not_mem_nil,
          or_false] at hmem
        rcases hmem with h1 | h1 | h1
        · omega
        · exact h1
        · omega
      · obtain ⟨r1, U, hr1⟩ := exists_concat_of_ne_nil rest hr
        subst hr1
        have hU : U ∈ (B :: (r1 ++ [U])).tail := by simp
        have hg : (B :: (r1 ++ [U])).getLast?.getD [] = U := by
          rw [← List.cons_append, List.getLast?_append]
          simp
        rw [hg] at hmem
        rcases hB.2 U hU data hmem with h1 | h1 | h1
        · omega
        · omega
        · exact h1
    refine ⟨ks, hB, hs, fun x => ?_⟩
    simp only [List.mem_append, List.mem_singleton, hm]
    constructor
    · exact Or.inl
    · rintro (h1 | rfl)
      · exact h1
      · exact (hm _).mp hks
  · obtain ⟨n, hn⟩ : ∃ n, (drawHeight rands 1).1 = n + 1 :=
      ⟨(drawHeight rands 1).1 - 1, by have := drawHeight_ge rands 1; omega⟩
    rw [hn]
    obtain ⟨ks1, e1, hm1⟩ := insertBy_bounded data hi ks lo hs hd.1 hd.2
    have hs1 : (lo :: ks1 ++ [hi]).Sorted (· < ·) := by
      rw [← e1]
      exact sorted_insertBy data _ hs
    have hdk : data ∈ ks1 := (hm1 data).mpr (Or.inr rfl)
    refine ⟨ks1, ?_, hs1, fun x => ?_⟩
    · simp only [keysLoop]
      refine BottomIs.loop _ data hdk n 0 _ ?_
      obtain ⟨rest1, e2, h1⟩ : ∃ rest1,
          (if decide (n + 1 > (B :: rest).length) = true
            then (B :: rest) ++ [[INT_MIN, INT_MAX]] else B :: rest) = B :: rest1 ∧
          ∀ U ∈ rest1, ∀ x ∈ U, x = INT_MIN ∨ x = INT_MAX ∨ x ∈ ks := by
        split_ifs
        · refine ⟨rest ++ [[INT_MIN, INT_MAX]], by simp, ?_⟩
          intro U hU x hx
          rcases List.mem_append.mp hU with hU | hU
          · exact hB.2 U hU x hx
          · simp only [List.mem_singleton] at hU
            subst hU
            simp only [List.mem_cons, List.mem_singleton, List.not_mem_nil, or_false] at hx
            tauto
        · exact ⟨rest, rfl, hB.2⟩
      rw [e2]
      simp only [List.set_cons_zero, List.getElem?_cons_zero, Option.getD_some]
      refine ⟨by rw [hBe, e1]; rfl, ?_⟩
      intro U hU x hx
      rcases h1 U hU x hx with h2 | h2 | h2
      · exact Or.inl h2
      · exact Or.inr (Or.inl h2)
      · exact Or.inr (Or.inr ((hm1 x).mpr (Or.inl h2)))
    · simp only [List.mem_append, List.mem_singleton, hm1, hm]

/-- The measured height of a tower is its number of levels. -/
theorem IsTower.height_eq {s : SkipList} {T : List Lvl} (hT : IsTower s.heap s.topList T) :
    SkipList.height s = some T.length := by
  obtain ⟨t, b, ys, htop, -, hh⟩ := hT.heightLoop_eq
  simp [SkipList.height, htop, hh]

/-- The constructor followed by any run of `insert` calls returns a tower. -/
theorem IsTower.reach (h : Heap) (rands : List Nat) (minVal maxVal : Int) (keys : List Int) :
    ∃ s0 s T, SkipList.new h rands minVal maxVal = some s0 ∧
      SkipList.insertAll s0 keys = some s ∧ IsTower s.heap s.topList T := by
  obtain ⟨s0, h0, -, hT0⟩ := IsTower.new_eq h rands minVal maxVal
  obtain ⟨s, T, h1, hT, -⟩ := IsTower.insertAll_induct (fun _ => True) (fun _ _ => True)
    (fun _ _ _ _ _ _ => trivial) keys s0 _ [] (fun _ _ => trivial) hT0 trivial
  exact ⟨s0, s, T, h0, h1, hT⟩

/-- C8: after any run of `insert` calls a further call `insert(data)` returns, the
height measured afterwards is at least the height `H` measured before, and it is
greater only if the call did not return `nullptr` (the duplicate exit) and the
promotion height it drew is greater than `H`. -/
theorem C8_height_only_grows (h : Heap) (rands : List Nat) (minVal maxVal : Int)
    (keys : List Int) (data : Int) :
    ∃ s0 s H s1 r H1, SkipList.new h rands minVal maxVal = some s0 ∧
      SkipList.insertAll s0 keys = some s ∧ SkipList.height s = some H ∧
      SkipList.insert s data = some (s1, r) ∧ SkipList.height s1 = some H1 ∧
      H ≤ H1 ∧ (H < H1 → r ≠ PtrVal.val none ∧ H < (drawHeight s.rands 1).1) := by
  obtain ⟨s0, s, T, h0, h1, hT⟩ := IsTower.reach h rands minVal maxVal keys
  have hi := hT.insert_cases data
  by_cases hd : scanBy id data ((T.map Lvl.keys).getLast?.getD []) = some data
  · exact ⟨s0, s, T.length, s, _, T.length, h0, h1, hT.height_eq, hi.1 hd, hT.height_eq,
      le_refl _, fun hlt => absurd hlt (lt_irrefl _)⟩
  · obtain ⟨s1, T1, h2, hT1, -, hk⟩ := hi.2 hd
    have hlen := congrArg List.length hk
    rw [length_keysLoop, List.length_map, List.length_map] at hlen
    refine ⟨s0, s, T.length, s1, _, T1.length, h0, h1, hT.height_eq, h2, hT1.height_eq, ?_, ?_⟩
    · omega
    · intro hlt
      refine ⟨by simp, ?_⟩
      by_contra hcon
      simp [hcon] at hlen
      omega

/-- The bottom-most level when the bounds lie within the range of `int`: for bounds
`minVal < maxVal` with `INT_MIN ≤ minVal` and `maxVal ≤ INT_MAX` and keys strictly
between them, after the `insert` calls the bottom-most level (the last line
printed) reads `minVal`, then the keys `ks`, then `maxVal`, where `ks` is strictly
increasing and holds exactly the inserted keys. -/
theorem bottom_level_sorted_of_int_bounds (h : Heap) (rands : List Nat) (minVal maxVal : Int)
    (keys : List Int) (hlt : minVal < maxVal) (hmin : INT_MIN ≤ minVal)
    (hmax : maxVal ≤ INT_MAX) (hkeys : ∀ k ∈ keys, minVal < k ∧ k < maxVal) :
    ∃ s0 s levels ks, SkipList.new h rands minVal maxVal = some s0 ∧
      SkipList.insertAll s0 keys = some s ∧ SkipList.printData s = some levels ∧
      levels.getLast? = some (minVal :: ks ++ [maxVal]) ∧
      ks.Sorted (· < ·) ∧ ∀ x, x ∈ ks ↔ x ∈ keys := by
  obtain ⟨s0, h0, -, hT0⟩ := IsTower.new_eq h rands minVal maxVal
  obtain ⟨s, T, h1, hT, ks, hB, hs, hm⟩ := IsTower.insertAll_induct
    (fun k => minVal < k ∧ k < maxVal) (BottomInv minVal maxVal)
    (fun done K r d hd hK => BottomInv.step hmin hmax done K r d hd hK) keys s0 _ [] hkeys hT0
    ⟨[], ⟨rfl, by simp⟩, by simp [List.Sorted, hlt], by simp⟩
  refine ⟨s0, s, _, ks, h0, h1, hT.printData_eq, ?_, ?_, by simpa using hm⟩
  · rw [List.getLast?_reverse]
    exact hB.1
  · have := (List.pairwise_cons.mp hs).2
    exact (List.pairwise_append.mp this).1

/-- A run within the range of `int`: bounds 0 and 10, the values 1, 0 of `rand()`,
the keys 5, 3, 8, 3; the bottom-most level it prints is 0, 3, 5, 8, 10. -/
theorem bottom_level_sorted_of_int_bounds_example :
    (0 : Int) < 10 ∧ INT_MIN ≤ 0 ∧ (10 : Int) ≤ INT_MAX ∧
      (∀ k ∈ [(5 : Int), 3, 8, 3], 0 < k ∧ k < 10) ∧
      (∃ s0 s levels ks, SkipList.new Heap.empty [1, 0] 0 10 = some s0 ∧
        SkipList.insertAll s0 [5, 3, 8, 3] = some s ∧ SkipList.printData s = some levels ∧
        levels.getLast? = some (0 :: ks ++ [10]) ∧
        ks.Sorted (· < ·) ∧ ∀ x, x ∈ ks ↔ x ∈ [(5 : Int), 3, 8, 3]) ∧
      (SkipList.run [1, 0] 0 10 [5, 3, 8, 3]).bind SkipList.printData
        = some [[INT_MIN, INT_MAX], [INT_MIN, 5, INT_MAX], [0, 3, 5, 8, 10]] :=
  ⟨by decide, by decide, by decide, by decide,
    bottom_level_sorted_of_int_bounds Heap.empty [1, 0] 0 10 [5, 3, 8, 3] (by decide)
      (by decide) (by decide) (by decide),
    by decide⟩

/-- C5 (evaluation): with the key type `long long`, on `SkipList(0, 10000000000)`
with the values `rand330` of `rand()`, after `insert(5)` and `insert(2147483647)`
the bottom-most level reads 0, 5, 10000000000: the key 2147483647, which lies
strictly between the bounds, is missing.  The second call returns `nullptr`: its
search ends at the tail of the top-most level, whose data is `INT_MAX`, and the
test on line 232 takes that sentinel for the key. -/
theorem C5_bottom_level_misses_inserted_key :
    ((0 : Int) < 2147483647 ∧ (2147483647 : Int) < 10000000000) ∧
      (SkipList.run rand330 0 10000000000 [5, 2147483647]).bind SkipList.printData
        = some [[INT_MIN, INT_MAX], [INT_MIN, 5, INT_MAX], [INT_MIN, 5, INT_MAX],
            [0, 5, 10000000000]] ∧
      ((SkipList.run rand330 0 10000000000 [5]).bind
          (fun s => SkipList.insert s 2147483647)).map Prod.snd
        = some (PtrVal.val none) ∧
      (2147483647 : Int) ∉ [(0 : Int), 5, 10000000000] := by
  decide

/-- C1 (evaluation): on `SkipList(0, 10)` with the values `rand330` of `rand()`,
after `insert(5)`, `insert(3)`, `insert(8)` the three keys are stored in the
bottom-most level, yet `search` returns for each of them a node whose data is
`INT_MIN`. -/
theorem C1_search_misses_inserted_key :
    (SkipList.run rand330 0 10 [5, 3, 8]).bind SkipList.printData
        = some [[INT_MIN, INT_MAX], [INT_MIN, 5, INT_MAX], [INT_MIN, 5, INT_MAX],
            [0, 3, 5, 8, 10]] ∧
      (SkipList.run rand330 0 10 [5, 3, 8]).bind (fun s => SkipList.searchData s 5)
        = some INT_MIN ∧
      (SkipList.run rand330 0 10 [5, 3, 8]).bind (fun s => SkipList.searchData s 3)
        = some INT_MIN ∧
      (SkipList.run rand330 0 10 [5, 3, 8]).bind (fun s => SkipList.searchData s 8)
        = some INT_MIN := by
  decide

/-- C2 (evaluation): on `SkipList(0, 10)` with the values `rand330` of `rand()`,
after `insert(5)`, `insert(3)`, `insert(8)` the bottom-most list (address 0) reads
0, 3, 5, 8, 10 and the key 4 is in no level; `search(4)` returns the node at
address 8, the head of the top-most list, whose data is `INT_MIN`, not the
bottom-level node holding 3. -/
theorem C2_search_returns_top_level_node :
    (SkipList.run rand330 0 10 [5, 3, 8]).bind SkipList.printData
        = some [[INT_MIN, INT_MAX], [INT_MIN, 5, INT_MAX], [INT_MIN, 5, INT_MAX],
            [0, 3, 5, 8, 10]] ∧
      (SkipList.run rand330 0 10 [5, 3, 8]).bind (fun s => LinkedList.printData s.heap 0)
        = some [0, 3, 5, 8, 10] ∧
      (SkipList.run rand330 0 10 [5, 3, 8]).bind (fun s => SkipList.search s 4) = some 8 ∧
      (SkipList.run rand330 0 10 [5, 3, 8]).bind
          (fun s => (s.topList.bind (fun t => s.heap.lists[t]?)).bind LinkedList.head)
        = some 8 ∧
      (SkipList.run rand330 0 10 [5, 3, 8]).bind (fun s => SkipList.searchData s 4)
        = some INT_MIN := by
  decide

/-- C3 (evaluation): on `SkipList(0, 10)` with the values `rand330` of `rand()`,
after `insert(5)`, `insert(3)`, `insert(8)` a second `insert(3)` does not return
`nullptr` and puts the key 3 into the second level, which held only 5 before. -/
theorem C3_duplicate_insert_changes_tower :
    (SkipList.run rand330 0 10 [5, 3, 8]).bind SkipList.printData
        = some [[INT_MIN, INT_MAX], [INT_MIN, 5, INT_MAX], [INT_MIN, 5, INT_MAX],
            [0, 3, 5, 8, 10]] ∧
      ((SkipList.run rand330 0 10 [5, 3, 8]).bind (fun s => SkipList.insert s 3)).map
          (fun p => (p.2, SkipList.printData p.1))
        = some (PtrVal.uninit,
            some [[INT_MIN, INT_MAX], [INT_MIN, 5, INT_MAX], [INT_MIN, 3, 5, INT_MAX],
              [0, 3, 5, 8, 10]]) := by
  decide

/-- C4 (evaluation): on a fresh `SkipList(0, 10)` with the values `rand330` of
`rand()` the call `insert(5)` stores the key in the bottom-most level and returns
the local `insertedElement`, which was never assigned: neither `nullptr` nor the
address of the new node. -/
theorem C4_insert_returns_unassigned_pointer :
    ((SkipList.run rand330 0 10 []).bind (fun s => SkipList.insert s 5)).map
        (fun p => (p.2, SkipList.printData p.1))
      = some (PtrVal.uninit,
          some [[INT_MIN, INT_MAX], [INT_MIN, 5, INT_MAX], [INT_MIN, 5, INT_MAX],
            [0, 5, 10]]) := by
  decide

/-- C7 (evaluation): on `SkipList(0, 10)` with the values `rand330` of `rand()`,
`insert(-5)` puts the key -5 into the second and the third level, between the
sentinels `INT_MIN` and `INT_MAX`, although the bottom-most level does not hold
it. -/
theorem C7_key_above_missing_below :
    (SkipList.run rand330 0 10 [-5]).bind SkipList.printData
      = some [[INT_MIN, INT_MAX], [INT_MIN, -5, INT_MAX], [INT_MIN, -5, INT_MAX],
          [0, 10]] := by
  decide

/-- C9 (counterexample): `SkipList(5, 5)` is constructed, not rejected, and its
only level reads 5, 5. -/
theorem C9_equal_bounds_accepted :
    (5 : Int) ≥ 5 ∧ SkipList.new Heap.empty [] 5 5 ≠ none ∧
      (SkipList.new Heap.empty [] 5 5).bind SkipList.printData = some [[5, 5]] ∧
      ¬ List.Sorted (· < ·) [(5 : Int), 5] := by
  decide

/-- C9 (amended): the constructor validates nothing: for every pair of bounds, on
any heap, it returns a skip list whose single level reads `minVal`, `maxVal`. -/
theorem C9_constructor_accepts_any_bounds (h : Heap) (rands : List Nat)
    (minVal maxVal : Int) :
    ∃ s, SkipList.new h rands minVal maxVal = some s ∧
      SkipList.printData s = some [[minVal, maxVal]] ∧ SkipList.height s = some 1 := by
  obtain ⟨s, h0, -, hT⟩ := IsTower.new_eq h rands minVal maxVal
  exact ⟨s, h0, hT.printData_eq, hT.height_eq⟩

/-- C10: on a freshly constructed `SkipList(minVal, maxVal)`, which has one level
holding only the two sentinels, `search(k)` for a key `k < maxVal` (so for every
key with `minVal < k < maxVal`) returns the head node of the top list, and its
data is `minVal`. -/
theorem C10_search_on_empty_returns_head (h : Heap) (rands : List Nat)
    (minVal maxVal k : Int) (h2 : k < maxVal) :
    ∃ s top l hd, SkipList.new h rands minVal maxVal = some s ∧
      SkipList.printData s = some [[minVal, maxVal]] ∧
      s.topList = some top ∧ s.heap.lists[top]? = some l ∧ l.head = some hd ∧
      SkipList.search s k = some hd ∧ SkipList.searchData s k = some minVal := by
  obtain ⟨s, h0, -, hT⟩ := IsTower.new_eq h rands minVal maxVal
  obtain ⟨c, -, hscan, hsearch, nx, pv, hnode⟩ := hT.search_eq k [] _ rfl
  have hl := hT.lookup [] _ [] rfl
  have hc : c = (h.nodes.length, minVal) := by
    have hk : ¬ maxVal ≤ k := not_le.mpr h2
    simpa [scanBy, hk] using hscan.symm
  subst hc
  refine ⟨s, h.lists.length, _, h.nodes.length, h0, hT.printData_eq, ?_, hl, rfl, hsearch, ?_⟩
  · rw [hT.top]
    rfl
  · simp [SkipList.searchData, hsearch, hnode]

/-- A run of C10: bounds 0 and 10 on the empty heap, the key 4. -/
theorem C10_search_on_empty_returns_head_witness :
    (4 : Int) < 10 ∧
      ∃ s top l hd, SkipList.new Heap.empty [] 0 10 = some s ∧
        SkipList.printData s = some [[0, 10]] ∧
        s.topList = some top ∧ s.heap.lists[top]? = some l ∧ l.head = some hd ∧
        SkipList.search s 4 = some hd ∧ SkipList.searchData s 4 = some 0 :=
  ⟨by decide, C10_search_on_empty_returns_head Heap.empty [] 0 10 4 (by decide)⟩

/-! ## The level operations on their own -/

/-- C13 (evaluation): in the level 0, 5, 10 (a `LinkedList(0, 10)` after
`insert(head, 5)`), which is strictly increasing, the call `insert(head, 5)` on
the head node at address 0 passes the guard, because the successor's data 5 is
`>= 5`, and the level reads 0, 5, 5, 10 afterwards. -/
theorem C13_level_insert_repeats_present_key :
    (LinkedList.insert (LinkedList.new Heap.empty 0 10).1 (some 0) 5).bind
        (fun p => LinkedList.printData p.1 0) = some [0, 5, 10] ∧
      ((LinkedList.insert (LinkedList.new Heap.empty 0 10).1 (some 0) 5).bind
        (fun p => LinkedList.insert p.1 (some 0) 5)).bind
        (fun p => LinkedList.printData p.1 0) = some [0, 5, 5, 10] ∧
      ¬ List.Sorted (· < ·) [(0 : Int), 5, 5, 10] := by
  decide

/-- C16 (evaluation): on a fresh `SkipList(0, 10)`, of height 1, with the values
`rand330` of `rand()`, `insert(5)` draws the promotion height 3 and leaves a tower
of height 4, not of height `max 1 3 = 3`: three levels are created, one in every
iteration of the loop. -/
theorem C16_insert_adds_a_level_per_iteration :
    (SkipList.run rand330 0 10 []).bind SkipList.height = some 1 ∧
      (drawHeight rand330 1).1 = 3 ∧
      ((SkipList.run rand330 0 10 []).bind (fun s => SkipList.insert s 5)).map
          (fun p => (p.2, SkipList.height p.1)) = some (PtrVal.uninit, some 4) ∧
      max 1 3 ≠ 4 := by
  decide

/-- C17 (evaluation): on `SkipList(0, 10)` with the values `rand330` of `rand()`,
after `insert(5)` the three levels created by the insertion start with `INT_MIN`
and end with `INT_MAX`, not with the bounds 0 and 10 of the constructor. -/
theorem C17_new_levels_carry_int_limits :
    (SkipList.run rand330 0 10 [5]).bind SkipList.printData
        = some [[INT_MIN, INT_MAX], [INT_MIN, 5, INT_MAX], [INT_MIN, 5, INT_MAX],
            [0, 5, 10]] ∧
      INT_MIN ≠ 0 ∧ INT_MAX ≠ 10 := by
  decide

/-- C12: `LinkedList::insert(location, data)` on a heap where `location` is null or
points to a node whose `next` is null or points to a node.  It returns.  If
`location` is a node `l` with a successor `n`, `l.data < data` and `n.data >= data`,
the result is the address of a new node that holds `data` between the two: its
`next` is the successor, its `prev` is `location`, the `next` of `location` and the
`prev` of the successor are the new node, and no other node and no list changes.
In every other case the result is `nullptr` and the heap is unchanged. -/
theorem C12_level_insert_guard (h : Heap) (location : Ptr) (data : Int)
    (hloc : ∀ loc, location = some loc → ∃ l, h.nodes[loc]? = some l ∧
      ∀ nx, l.next = some nx → ∃ n, h.nodes[nx]? = some n) :
    ∃ h1 r, LinkedList.insert h location data = some (h1, r) ∧ h1.lists = h.lists ∧
      ((∃ loc l nx n, location = some loc ∧ h.nodes[loc]? = some l ∧ l.next = some nx ∧
          h.nodes[nx]? = some n ∧ l.data < data ∧ n.data ≥ data ∧
          r = some h.nodes.length ∧ h1.nodes.length = h.nodes.length + 1 ∧
          h1.nodes[h.nodes.length]?
            = some { data := data, next := some nx, prev := some loc, up := none,
                     down := none } ∧
          h1.nodes[loc]? = some { l with next := some h.nodes.length } ∧
          h1.nodes[nx]? = some { n with prev := some h.nodes.length } ∧
          ∀ a, a ≠ loc → a ≠ nx → a ≠ h.nodes.length → h1.nodes[a]? = h.nodes[a]?) ∨
        ((¬ ∃ loc l nx n, location = some loc ∧ h.nodes[loc]? = some l ∧
            l.next = some nx ∧ h.nodes[nx]? = some n ∧ l.data < data ∧ n.data ≥ data) ∧
          r = none ∧ h1 = h)) := by
  obtain ⟨nodes, lists⟩ := h
  cases location with
  | none => exact ⟨_, none, rfl, rfl, Or.inr ⟨by simp, rfl, rfl⟩⟩
  | some loc =>
    obtain ⟨l, hl, hnx⟩ := hloc loc rfl
    simp only at hl hnx
    cases hn : l.next with
    | none =>
      refine ⟨_, none, by simp [LinkedList.insert, hl, hn], rfl, Or.inr ⟨?_, rfl, rfl⟩⟩
      rintro ⟨loc1, l1, nx, n, h1, h2, h3, -⟩
      simp only [Option.some.injEq] at h1
      subst h1
      rw [hl] at h2
      simp only [Option.some.injEq] at h2
      subst h2
      rw [hn] at h3
      simp at h3
    | some nx =>
      obtain ⟨n, hnn⟩ := hnx nx hn
      by_cases hg : l.data < data ∧ n.data ≥ data
      · have hne : loc ≠ nx := by
          rintro rfl
          rw [hl] at hnn
          simp only [Option.some.injEq] at hnn
          subst hnn
          omega
        have hlt : loc < nodes.length := (List.getElem?_eq_some.mp hl).1
        have hnlt : nx < nodes.length := (List.getElem?_eq_some.mp hnn).1
        refine ⟨⟨((nodes ++ [Node.mk data (some nx) (some loc) none none]).set nx
            { n with prev := some nodes.length }).set loc
            { l with next := some nodes.length }, lists⟩, some nodes.length, ?_, rfl,
          Or.inl ⟨loc, l, nx, n, rfl, hl, hn, hnn, hg.1, hg.2, rfl, by simp, ?_, ?_, ?_, ?_⟩⟩
        · simp [LinkedList.insert, hl, hn, hnn, hg, setPrev, setNext,
            List.getElem?_append_left hnlt, List.getElem?_append_left hlt,
            List.getElem?_set_ne (Ne.symm hne), Node.new]
        · simp only
          rw [List.getElem?_set_ne (Nat.ne_of_lt hlt), List.getElem?_set_ne (Nat.ne_of_lt hnlt),
            List.getElem?_concat_length]
        · simp only
          rw [List.getElem?_set_self (by simp; omega)]
        · simp only
          rw [List.getElem?_set_ne hne, List.getElem?_set_self (by simp; omega)]
        · intro a h1 h2 h3
          have h4 : a ≠ nodes.length := h3
          simp only
          rw [List.getElem?_set_ne (Ne.symm h1), List.getElem?_set_ne (Ne.symm h2)]
          by_cases ha : a < nodes.length
          · exact List.getElem?_append_left ha
          · rw [List.getElem?_eq_none (by simp; omega),
              List.getElem?_eq_none (Nat.le_of_not_lt ha)]
      · refine ⟨_, none, by simp [LinkedList.insert, hl, hn, hnn, hg], rfl,
          Or.inr ⟨?_, rfl, rfl⟩⟩
        rintro ⟨loc1, l1, nx1, n1, h1, h2, h3, h4, h5, h6⟩
        simp only [Option.some.injEq] at h1
        subst h1
        rw [hl] at h2
        simp only [Option.some.injEq] at h2
        subst h2
        rw [hn] at h3
        simp only [Option.some.injEq] at h3
        subst h3
        rw [hnn] at h4
        simp only [Option.some.injEq] at h4
        subst h4
        exact hg ⟨h5, h6⟩

/-! ## The nodes of the levels and their links -/

/-- The node loop of `print` on a chain returns the entries of the chain. -/
theorem printNodesLoop_chain {nodes : List Node} :
    ∀ (cells : List (Nat × Int)) (prev : Ptr) (fuel : Nat), IsLevelChain nodes prev cells →
      cells.length < fuel →
      LinkedList.printNodesLoop nodes fuel (cells.head?.map Prod.fst)
        = some (chainEntries prev cells)
  | [], _, fuel, _, hf => by
    cases fuel with
    | zero => simp at hf
    | succ f => simp [LinkedList.printNodesLoop, chainEntries]
  | c :: rest, _, fuel, hc, hf => by
    cases fuel with
    | zero => simp at hf
    | succ f =>
      have ih := printNodesLoop_chain rest (some c.1) f hc.2 (by simpa using hf)
      simp [LinkedList.printNodesLoop, hc.1, ih, chainEntries]

/-- `LinkedList::print` on a level of a tower returns the entries of its chain. -/
theorem IsTower.printNodesLevel {h : Heap} {top : Ptr} {T : List Lvl} (hT : IsTower h top T)
    (xs : List Lvl) (L : Lvl) (ys : List Lvl) (e : T = xs ++ L :: ys) :
    LinkedList.print h L.addr = some (chainEntries none L.cells) := by
  have hl := hT.lookup xs L ys e
  have hok := hT.levelOK xs L ys e
  simp only [LinkedList.print, hl]
  exact printNodesLoop_chain L.cells none _ hok.1 (Nat.lt_succ_of_le hok.2.2.1)

/-- The loop of `SkipList::print` started at a level writes it and the levels below. -/
theorem IsTower.printNodesLoop_eq {h : Heap} {top : Ptr} {T : List Lvl}
    (hT : IsTower h top T) :
    ∀ (xs : List Lvl) (L : Lvl) (ys : List Lvl) (fuel : Nat), T = xs ++ L :: ys →
      xs.length + 1 < fuel →
      SkipList.printNodesLoop h fuel (some L.addr)
        = some (((xs ++ [L]).map (fun M => chainEntries none M.cells)).reverse) := by
  intro xs
  induction xs using List.reverseRecOn with
  | nil =>
    intro L ys fuel e hf
    obtain ⟨f, rfl⟩ : ∃ f, fuel = f + 1 := ⟨fuel - 1, by simp at hf; omega⟩
    have hl := hT.lookup [] L ys e
    have hp := hT.printNodesLevel [] L ys e
    obtain ⟨g, rfl⟩ : ∃ g, f = g + 1 := ⟨f - 1, by simp at hf; omega⟩
    simp [SkipList.printNodesLoop, hl, hp]
  | append_singleton xs x ih =>
    intro L ys fuel e hf
    obtain ⟨f, rfl⟩ : ∃ f, fuel = f + 1 := ⟨fuel - 1, by simp at hf; omega⟩
    have hl := hT.lookup (xs ++ [x]) L ys e
    have hp := hT.printNodesLevel (xs ++ [x]) L ys e
    have := ih x (L :: ys) f (by simpa using e) (by simpa using hf)
    simp at hl
    simp [SkipList.printNodesLoop, hl, hp, this]

/-- `SkipList::print` returns the entries of every level of the tower, top-most first. -/
theorem IsTower.print_eq {s : SkipList} {T : List Lvl} (hT : IsTower s.heap s.topList T) :
    SkipList.print s = some ((T.map (fun M => chainEntries none M.cells)).reverse) := by
  obtain ⟨xs, L, e⟩ := exists_concat_of_ne_nil T hT.nonempty
  have ht := hT.top
  have hc := hT.listCount
  rw [e] at ht hc
  simp only [List.length_append, List.length_singleton] at hc
  simp only [SkipList.print]
  have := hT.printNodesLoop_eq xs L [] (s.heap.lists.length + 1) e (by omega)
  simp at ht
  rw [ht, this, e]

/-- No entry of a chain has an `up` or a `down` link. -/
theorem chainEntries_up_down :
    ∀ (cells : List (Nat × Int)) (prev : Ptr) (e : Nat × Node),
      e ∈ chainEntries prev cells → e.2.up = none ∧ e.2.down = none
  | [], _, _, he => by simp [chainEntries] at he
  | c :: rest, _, e, he => by
    rcases List.mem_cons.mp he with rfl | he
    · exact ⟨rfl, rfl⟩
    · exact chainEntries_up_down rest _ e he

/-- The entries of a chain are the nodes at their addresses. -/
theorem chainEntries_node {nodes : List Node} :
    ∀ (cells : List (Nat × Int)) (prev : Ptr) (e : Nat × Node),
      IsLevelChain nodes prev cells → e ∈ chainEntries prev cells → nodes[e.1]? = some e.2
  | [], _, _, _, he => by simp [chainEntries] at he
  | c :: rest, _, e, hc, he => by
    rcases List.mem_cons.mp he with rfl | he
    · exact hc.1
    · exact chainEntries_node rest _ e hc.2 he

/-- The entries of a chain carry its cells. -/
theorem chainEntries_cells :
    ∀ (cells : List (Nat × Int)) (prev : Ptr),
      (chainEntries prev cells).map (fun e => (e.1, e.2.data)) = cells
  | [], _ => rfl
  | c :: rest, _ => by
    simp [chainEntries, chainEntries_cells rest]

/-- The first entry of a chain has the predecessor the chain starts after. -/
theorem chainEntries_head :
    ∀ (cells : List (Nat × Int)) (prev : Ptr) (e : Nat × Node),
      (chainEntries prev cells).head? = some e → e.2.prev = prev
  | [], _, _, he => by simp [chainEntries] at he
  | c :: rest, _, e, he => by
    simp only [chainEntries, List.head?_cons, Option.some.injEq] at he
    rw [← he]

/-- The last entry of a chain has no successor. -/
theorem chainEntries_last :
    ∀ (cells : List (Nat × Int)) (prev : Ptr) (e : Nat × Node),
      (chainEntries prev cells).getLast? = some e → e.2.next = none
  | [], _, _, he => by simp [chainEntries] at he
  | [c], _, e, he => by
    simp only [chainEntries, List.getLast?_singleton, Option.some.injEq] at he
    rw [← he]
    rfl
  | c :: d :: rest, _, e, he => by
    rw [chainEntries] at he
    have : (chainEntries (some c.1) (d :: rest)) ≠ [] := by simp [chainEntries]
    obtain ⟨x, xs, hx⟩ := List.exists_cons_of_ne_nil this
    rw [hx, List.getLast?_cons_cons, ← hx] at he
    exact chainEntries_last (d :: rest) _ e he

/-- In the entries of a chain `next` and `prev` of neighbours point at each other. -/
theorem chainEntries_linked :
    ∀ (cells : List (Nat × Int)) (prev : Ptr),
      (chainEntries prev cells).Chain' (fun x y => x.2.next = some y.1 ∧ y.2.prev = some x.1)
  | [], _ => by simp [chainEntries]
  | [c], _ => by simp [chainEntries]
  | c :: d :: rest, _ => by
    have ih := chainEntries_linked (d :: rest) (some c.1)
    simp only [chainEntries] at ih ⊢
    exact List.Chain'.cons ⟨rfl, rfl⟩ ih

/-- The level `j` after the loop of `insert`: the levels `p`, ..., `p + n - 1` of
the tower, extended by the new levels, went through the guarded insertion and no
other level changed. -/
theorem getElem?_keysLoop (g : Bool) (d : Int) :
    ∀ (n p : Nat) (K : List (List Int)) (j : Nat),
      ((g = true ∧ p ≤ K.length) ∨ (g = false ∧ p + n ≤ K.length)) →
      (keysLoop g d n p K)[j]?
        = ((K ++ (if g = true then List.replicate n [INT_MIN, INT_MAX] else []))[j]?).map
            (fun l => if p ≤ j ∧ j < p + n then insertBy id d d l else l)
  | 0, p, K, j, _ => by
    have hc : ¬ (p ≤ j ∧ j < p + 0) := by omega
    simp only [keysLoop, List.replicate_zero, ite_self, List.append_nil, hc, if_false]
    cases K[j]? <;> rfl
  | n + 1, p, K, j, hc => by
    simp only [keysLoop]
    have hE : (if g = true then K ++ [[INT_MIN, INT_MAX]] else K)
          ++ (if g = true then List.replicate n [INT_MIN, INT_MAX] else [])
        = K ++ (if g = true then List.replicate (n + 1) [INT_MIN, INT_MAX] else []) := by
      cases g
      · simp
      · simp [List.replicate_succ]
    have hp : p < (if g = true then K ++ [[INT_MIN, INT_MAX]] else K).length := by
      rcases hc with ⟨hg, h⟩ | ⟨hg, h⟩
      · simp [hg]; omega
      · simp [hg]; omega
    obtain ⟨e, he⟩ : ∃ e, (if g = true then K ++ [[INT_MIN, INT_MAX]] else K)[p]? = some e :=
      ⟨_, List.getElem?_eq_getElem hp⟩
    have hc1 : (g = true ∧ p + 1 ≤ ((if g = true then K ++ [[INT_MIN, INT_MAX]] else K).set p
          (insertBy id d d e)).length) ∨
        (g = false ∧ p + 1 + n ≤ ((if g = true then K ++ [[INT_MIN, INT_MAX]] else K).set p
          (insertBy id d d e)).length) := by
      rw [List.length_set]
      rcases hc with ⟨hg, h⟩ | ⟨hg, h⟩
      · exact Or.inl ⟨hg, hp⟩
      · refine Or.inr ⟨hg, ?_⟩
        simp [hg]
        omega
    rw [he, Option.getD_some, getElem?_keysLoop g d n (p + 1) _ j hc1,
      ← List.set_append_left _ _ hp, hE]
    have heE : (K ++ (if g = true then List.replicate (n + 1) [INT_MIN, INT_MAX] else []))[p]?
        = some e := by
      rw [← hE, List.getElem?_append_left hp, he]
    by_cases hj : p = j
    · subst hj
      have hlt : p < (K ++ (if g = true then List.replicate (n + 1) [INT_MIN, INT_MAX]
          else [])).length := (List.getElem?_eq_some.mp heE).1
      have h1 : ¬ (p + 1 ≤ p ∧ p < p + 1 + n) := by omega
      have h2 : p ≤ p ∧ p < p + (n + 1) := by omega
      rw [List.getElem?_set_self hlt, heE]
      simp [h1]
    · rw [List.getElem?_set_ne hj]
      have h1 : (p + 1 ≤ j ∧ j < p + 1 + n) ↔ (p ≤ j ∧ j < p + (n + 1)) := by omega
      simp only [h1]

/-- The guarded insertion keeps the first and the last element. -/
theorem insertBy_ends (d hi : Int) :
    ∀ (ks : List Int) (lo : Int), ∃ ks1, insertBy id d d (lo :: ks ++ [hi]) = lo :: ks1 ++ [hi]
  | [], lo => by
    simp only [List.nil_append, List.cons_append, insertBy, id]
    split_ifs
    · exact ⟨[], rfl⟩
    · exact ⟨[d], rfl⟩
    · exact ⟨[], rfl⟩
  | k :: ks, lo => by
    obtain ⟨ks1, e⟩ := insertBy_ends d hi ks k
    simp only [List.cons_append, insertBy, id] at e ⊢
    split_ifs
    · exact ⟨k :: ks1, congrArg (List.cons lo) e⟩
    · exact ⟨d :: k :: ks, rfl⟩
    · exact ⟨k :: ks, rfl⟩

/-- The loop of `LinkedList::search` on a chain stops at the cell `r` where the scan
of the cells stops: every cell it passed after the first, `r` included, has a key
of at most `k`, and the cell behind `r`, if any, has a greater key. -/
theorem searchLoop_chain {nodes : List Node} (k : Int) :
    ∀ (cells : List (Nat × Int)) (prev : Ptr) (fuel : Nat),
      IsLevelChain nodes prev cells → cells ≠ [] → cells.length ≤ fuel →
      ∃ mid r rest, cells = mid ++ r :: rest ∧
        LinkedList.searchLoop nodes k fuel (cells.head?.map Prod.fst) = some (some r.1) ∧
        scanBy Prod.snd k cells = some r ∧
        (∀ x ∈ (mid ++ [r]).tail, x.2 ≤ k) ∧ (∀ x ∈ rest.head?, k < x.2)
  | [], _, _, _, hne, _ => absurd rfl hne
  | [a], _, fuel, hc, _, hf => by
    obtain ⟨f, rfl⟩ : ∃ f, fuel = f + 1 := ⟨fuel - 1, by simp at hf; omega⟩
    have ha := hc.1
    simp only [List.head?_nil, Option.map_none'] at ha
    exact ⟨[], a, [], rfl, by simp [LinkedList.searchLoop, ha], rfl, by simp, by simp⟩
  | a :: b :: rest, _, fuel, hc, _, hf => by
    obtain ⟨f, rfl⟩ : ∃ f, fuel = f + 1 := ⟨fuel - 1, by simp at hf; omega⟩
    have ha := hc.1
    have hb := hc.2.1
    simp only [List.head?_cons, Option.map_some'] at ha
    by_cases hle : b.2 ≤ k
    · obtain ⟨mid, r, rest1, e, h1, h2, h3, h4⟩ :=
        searchLoop_chain k (b :: rest) (some a.1) f hc.2 (by simp) (by simpa using hf)
      refine ⟨a :: mid, r, rest1, by rw [e]; rfl, ?_, by simp [scanBy, hle, h2], ?_, h4⟩
      · simp only [List.head?_cons, Option.map_some'] at h1 ⊢
        simp [LinkedList.searchLoop, ha, hb, hle, h1]
      · intro x hx
        simp only [List.cons_append, List.tail_cons] at hx
        cases hm : mid ++ [r] with
        | nil => simp at hm
        | cons y t =>
          have hy : y = b := by
            have e1 : b :: rest = (mid ++ [r]) ++ rest1 := by simpa using e
            rw [hm] at e1
            simp only [List.cons_append, List.cons.injEq] at e1
            exact e1.1.symm
          rw [hm] at hx h3
          rcases List.mem_cons.mp hx with rfl | hx
          · rw [hy]; exact hle
          · exact h3 x hx
    · refine ⟨[], a, b :: rest, rfl, ?_, by simp [scanBy, hle], by simp, ?_⟩
      · simp only [List.head?_cons, Option.map_some']
        simp [LinkedList.searchLoop, ha, hb, hle]
      · intro x hx
        simp only [List.head?_cons, Option.mem_def, Option.some.injEq] at hx
        rw [← hx]
        exact lt_of_not_ge hle

/-- What `keysInsert` leaves at level `j`: a level of the tower before, or a new level
with the sentinels `INT_MIN`, `INT_MAX`, as it was or after the guarded insertion. -/
theorem getElem?_keysInsert (K : List (List Int)) (rands : List Nat) (d : Int) (j : Nat)
    (l : List Int) (h : (keysInsert K rands d)[j]? = some l) :
    ∃ l0, (K[j]? = some l0 ∨ (K.length ≤ j ∧ l0 = [INT_MIN, INT_MAX])) ∧
      (l = l0 ∨ l = insertBy id d d l0) := by
  unfold keysInsert at h
  split_ifs at h with hd
  · exact ⟨l, Or.inl h, Or.inl rfl⟩
  · have hc : (decide ((drawHeight rands 1).1 > K.length) = true ∧ 0 ≤ K.length) ∨
        (decide ((drawHeight rands 1).1 > K.length) = false ∧
          0 + (drawHeight rands 1).1 ≤ K.length) := by
      by_cases hi : (drawHeight rands 1).1 > K.length
      · exact Or.inl ⟨by simp [hi], Nat.zero_le _⟩
      · exact Or.inr ⟨by simp [hi], by omega⟩
    rw [getElem?_keysLoop _ d _ 0 K j hc] at h
    obtain ⟨l0, h0, h1⟩ := Option.map_eq_some'.mp h
    refine ⟨l0, ?_, ?_⟩
    · by_cases hj : j < K.length
      · rw [List.getElem?_append_left hj] at h0
        exact Or.inl h0
      · refine Or.inr ⟨by omega, ?_⟩
        rw [List.getElem?_append_right (by omega)] at h0
        have hm := List.getElem?_mem h0
        split_ifs at hm
        · exact List.eq_of_mem_replicate hm
        · simp at hm
    · split_ifs at h1
      · exact Or.inr h1.symm
      · exact Or.inl h1.symm

/-- `insert` keeps the sentinels of every level and the tower non-empty. -/
theorem Sentinels.keysInsert_step {lo hi : Int} (K : List (List Int)) (rands : List Nat) (d : Int)
    (h : K ≠ [] ∧ Sentinels lo hi K) :
    keysInsert K rands d ≠ [] ∧ Sentinels lo hi (keysInsert K rands d) := by
  constructor
  · intro h0
    have hl : (keysInsert K rands d).length = 0 := by rw [h0]; rfl
    unfold keysInsert at hl
    split_ifs at hl
    · exact h.1 (List.length_eq_zero.mp hl)
    · rw [length_keysLoop] at hl
      exact h.1 (List.length_eq_zero.mp (by omega))
  · intro j l hl
    obtain ⟨l0, h0, h1⟩ := getElem?_keysInsert K rands d j l hl
    have hs : ∃ ks, l0 = (if j = 0 then lo else INT_MIN) :: ks
        ++ [if j = 0 then hi else INT_MAX] := by
      rcases h0 with h0 | ⟨hj, rfl⟩
      · exact h.2 j l0 h0
      · have hK : 0 < K.length := List.length_pos.mpr h.1
        have hj0 : j ≠ 0 := by omega
        exact ⟨[], by simp [hj0]⟩
    rcases h1 with rfl | rfl
    · exact hs
    · obtain ⟨ks, rfl⟩ := hs
      exact insertBy_ends d _ ks _

/-- The data of the entries of a chain are its keys. -/
theorem chainEntries_keys (cells : List (Nat × Int)) (prev : Ptr) :
    (chainEntries prev cells).map (fun e => e.2.data) = cells.map Prod.snd := by
  have h := congrArg (List.map Prod.snd) (chainEntries_cells cells prev)
  simpa [List.map_map, Function.comp_def] using h

/-- The constructor followed by any run of `insert` calls returns a tower whose
levels carry their sentinels. -/
theorem IsTower.reach_sentinels (h : Heap) (rands : List Nat) (minVal maxVal : Int)
    (keys : List Int) :
    ∃ s0 s T, SkipList.new h rands minVal maxVal = some s0 ∧
      SkipList.insertAll s0 keys = some s ∧ IsTower s.heap s.topList T ∧
      Sentinels minVal maxVal (T.map Lvl.keys) := by
  obtain ⟨s0, h0, -, hT0⟩ := IsTower.new_eq h rands minVal maxVal
  obtain ⟨s, T, h1, hT, hP⟩ := IsTower.insertAll_induct (fun _ => True)
    (fun _ K => K ≠ [] ∧ Sentinels minVal maxVal K)
    (fun _ K r d _ hK => Sentinels.keysInsert_step K r d hK) keys s0 _ [] (fun _ _ => trivial) hT0
    ⟨by simp, by
      intro j l hl
      cases j with
      | zero =>
        simp only [List.map_cons, List.map_nil, List.getElem?_cons_zero, Option.some.injEq,
          Lvl.keys] at hl
        exact ⟨[], by rw [← hl]; rfl⟩
      | succ j => simp at hl⟩
  exact ⟨s0, s, T, h0, h1, hT, hP.2⟩

/-- C20: after the constructor and any run of `insert` calls, `print` walks every
level to its end, and in every level (counted from the bottom-most one, `j = 0`)
the entries are the nodes of the heap, the first node has no predecessor and holds
the lower sentinel, the last node has no successor and holds the upper sentinel
(`maxVal` in the bottom-most level, `INT_MAX` above), and for neighbours `x`, `y`
of the chain `x.next` is `y` and `y.prev` is `x`. -/
theorem C20_levels_are_doubly_linked_chains (h : Heap) (rands : List Nat)
    (minVal maxVal : Int) (keys : List Int) :
    ∃ s0 s lines, SkipList.new h rands minVal maxVal = some s0 ∧
      SkipList.insertAll s0 keys = some s ∧ SkipList.print s = some lines ∧
      ∀ j line, lines.reverse[j]? = some line →
        (∀ e ∈ line, s.heap.nodes[e.1]? = some e.2) ∧
        (∃ hd, line.head? = some hd ∧ hd.2.prev = none ∧
          hd.2.data = if j = 0 then minVal else INT_MIN) ∧
        (∃ tl, line.getLast? = some tl ∧ tl.2.next = none ∧
          tl.2.data = if j = 0 then maxVal else INT_MAX) ∧
        line.Chain' (fun x y => x.2.next = some y.1 ∧ y.2.prev = some x.1) := by
  obtain ⟨s0, s, T, h0, h1, hT, hS⟩ := IsTower.reach_sentinels h rands minVal maxVal keys
  refine ⟨s0, s, _, h0, h1, hT.print_eq, ?_⟩
  intro j line hj
  rw [List.reverse_reverse, List.getElem?_map] at hj
  obtain ⟨L, hL, rfl⟩ := Option.map_eq_some'.mp hj
  have hok := hT.levels L (List.getElem?_mem hL)
  obtain ⟨ks, hks⟩ := hS j L.keys (by rw [List.getElem?_map, hL]; rfl)
  have hk := chainEntries_keys L.cells none
  rw [show L.cells.map Prod.snd = L.keys from rfl, hks] at hk
  refine ⟨fun e he => chainEntries_node _ _ e hok.1 he, ?_, ?_, chainEntries_linked _ _⟩
  · cases hc : chainEntries none L.cells with
    | nil => rw [hc] at hk; simp at hk
    | cons hd t =>
      refine ⟨hd, rfl, chainEntries_head L.cells none hd (by rw [hc]; rfl), ?_⟩
      rw [hc] at hk
      simp only [List.map_cons, List.cons_append, List.cons.injEq] at hk
      exact hk.1
  · have hl := congrArg List.getLast? hk
    rw [List.getLast?_map, List.getLast?_append] at hl
    simp only [List.getLast?_singleton, Option.or_some] at hl
    obtain ⟨tl, htl, hd⟩ := Option.map_eq_some'.mp hl
    exact ⟨tl, htl, chainEntries_last _ _ tl htl, hd⟩

/-- C19: after the constructor and any run of `insert` calls no node that `print`
reaches has an `up` or a `down` link, and `SkipList::search(k)` returns the node
that `LinkedList::search(topList->head, k)` returns. -/
theorem C19_search_stays_in_top_level (h : Heap) (rands : List Nat)
    (minVal maxVal : Int) (keys : List Int) (k : Int) :
    ∃ s0 s lines top l p, SkipList.new h rands minVal maxVal = some s0 ∧
      SkipList.insertAll s0 keys = some s ∧ SkipList.print s = some lines ∧
      (∀ line ∈ lines, ∀ e ∈ line, e.2.up = none ∧ e.2.down = none) ∧
      s.topList = some top ∧ s.heap.lists[top]? = some l ∧
      SkipList.search s k = some p ∧ LinkedList.search s.heap l.head k = some (some p) := by
  obtain ⟨s0, s, T, h0, h1, hT⟩ := IsTower.reach h rands minVal maxVal keys
  obtain ⟨xs, L, e⟩ := exists_concat_of_ne_nil T hT.nonempty
  obtain ⟨c, -, hscan, hsearch, -⟩ := hT.search_eq k xs L e
  have hl := hT.lookup xs L [] e
  have hok := hT.levelOK xs L [] e
  obtain ⟨mid, r, rest, -, hs1, hs2, -⟩ := searchLoop_chain k L.cells none
    (s.heap.nodes.length + 1) hok.1 hok.2.1 (Nat.le_succ_of_le hok.2.2.1)
  have hrc : r = c := by
    rw [hscan] at hs2
    exact (Option.some.inj hs2).symm
  refine ⟨s0, s, _, L.addr, _, c.1, h0, h1, hT.print_eq, ?_, ?_, hl, hsearch, ?_⟩
  · intro line hline e1 he1
    obtain ⟨M, -, rfl⟩ := List.mem_map.mp (List.mem_reverse.mp hline)
    exact chainEntries_up_down _ _ e1 he1
  · rw [hT.top, e]
    simp
  · rw [← hrc]
    exact hs1

/-- C11: after the constructor and any run of `insert` calls, `search(k)` returns for
every key `k`, and what it returns is the address of a node of the heap that
`print` lists in the top-most level. -/
theorem C11_search_returns_a_node (h : Heap) (rands : List Nat)
    (minVal maxVal : Int) (keys : List Int) (k : Int) :
    ∃ s0 s lines topLine p n, SkipList.new h rands minVal maxVal = some s0 ∧
      SkipList.insertAll s0 keys = some s ∧ SkipList.print s = some lines ∧
      lines.head? = some topLine ∧ SkipList.search s k = some p ∧
      (p, n) ∈ topLine ∧ s.heap.nodes[p]? = some n := by
  obtain ⟨s0, s, T, h0, h1, hT⟩ := IsTower.reach h rands minVal maxVal keys
  obtain ⟨xs, L, e⟩ := exists_concat_of_ne_nil T hT.nonempty
  obtain ⟨c, hc, -, hsearch, -⟩ := hT.search_eq k xs L e
  have hok := hT.levelOK xs L [] e
  have hcells := chainEntries_cells L.cells none
  rw [← hcells] at hc
  obtain ⟨en, hen, rfl⟩ := List.mem_map.mp hc
  refine ⟨s0, s, _, chainEntries none L.cells, en.1, en.2, h0, h1, hT.print_eq, ?_, hsearch,
    hen, chainEntries_node _ _ en hok.1 hen⟩
  rw [e]
  simp

/-- The node of a cell in the middle of a chain: it carries the key of the cell and
its `next` is the cell behind it. -/
theorem IsLevelChain.lookup_cell {nodes : List Node} :
    ∀ (mid : List (Nat × Int)) (prev : Ptr) (r : Nat × Int) (rest : List (Nat × Int)),
      IsLevelChain nodes prev (mid ++ r :: rest) →
      ∃ pv, nodes[r.1]? = some ⟨r.2, rest.head?.map Prod.fst, pv, none, none⟩
  | [], _, _, _, h => ⟨_, h.1⟩
  | _ :: mid, _, r, rest, h => IsLevelChain.lookup_cell mid _ r rest h.2

/-- A chain with strictly increasing keys passes no address twice. -/
theorem IsLevelChain.nodup_of_sorted {nodes : List Node} :
    ∀ (cells : List (Nat × Int)) (prev : Ptr), IsLevelChain nodes prev cells →
      (cells.map Prod.snd).Sorted (· < ·) → (cells.map Prod.fst).Nodup
  | [], _, _, _ => List.nodup_nil
  | c :: rest, _, hc, hs => by
    have hs1 := List.pairwise_cons.mp hs
    refine List.nodup_cons.mpr ⟨?_, IsLevelChain.nodup_of_sorted rest _ hc.2 hs1.2⟩
    intro hm
    obtain ⟨d, hd, hdc⟩ := List.mem_map.mp hm
    obtain ⟨nx, pv, hn⟩ := IsLevelChain.mem_node rest _ d hc.2 hd
    rw [hdc, hc.1] at hn
    simp only [Option.some.injEq, Node.mk.injEq] at hn
    have := hs1.1 d.2 (List.mem_map_of_mem _ hd)
    omega

/-- A list of distinct numbers below `n` has at most `n` elements. -/
theorem length_le_of_nodup_of_lt (l : List Nat) (n : Nat) (hn : l.Nodup)
    (hl : ∀ x ∈ l, x < n) : l.length ≤ n := by
  have h1 : l.toFinset ⊆ Finset.range n := by
    intro x hx
    exact Finset.mem_range.mpr (hl x (List.mem_toFinset.mp hx))
  have h2 := Finset.card_le_card h1
  rwa [List.toFinset_card_of_nodup hn, Finset.card_range] at h2

/-- C14: in a heap where the nodes from `start` on form a chain with the cells
`start :: post` whose keys are strictly increasing, and `start` has a key of at
most `k`, `LinkedList::search(start, k)` returns the node `r` of the chain such
that `r` and every node between `start` and `r` have a key of at most `k` and
every node behind `r` has a greater key: `r` holds a key `<= k` and its `next` is
null or a node with a key `> k`. -/
theorem C14_level_search_returns_rightmost (h : Heap) (prev : Ptr) (start : Nat × Int)
    (post : List (Nat × Int)) (k : Int)
    (hchain : IsLevelChain h.nodes prev (start :: post))
    (hsorted : ((start :: post).map Prod.snd).Sorted (· < ·))
    (hstart : start.2 ≤ k) :
    ∃ mid r rest pv, start :: post = mid ++ r :: rest ∧
      LinkedList.search h (some start.1) k = some (some r.1) ∧
      h.nodes[r.1]? = some ⟨r.2, rest.head?.map Prod.fst, pv, none, none⟩ ∧
      (∀ x ∈ mid, x.2 ≤ k) ∧ r.2 ≤ k ∧ (∀ x ∈ rest, k < x.2) := by
  have hnd := IsLevelChain.nodup_of_sorted _ _ hchain hsorted
  have hlen : (start :: post).length ≤ h.nodes.length := by
    have := length_le_of_nodup_of_lt _ h.nodes.length hnd (by
      intro x hx
      obtain ⟨c, hc, rfl⟩ := List.mem_map.mp hx
      obtain ⟨nx, pv, hn⟩ := IsLevelChain.mem_node _ _ c hchain hc
      exact (List.getElem?_eq_some.mp hn).1)
    simpa using this
  obtain ⟨mid, r, rest, e, h1, -, h3, h4⟩ := searchLoop_chain k (start :: post) prev
    (h.nodes.length + 1) hchain (by simp) (Nat.le_succ_of_le hlen)
  obtain ⟨pv, hr⟩ := IsLevelChain.lookup_cell mid prev r rest (e ▸ hchain)
  have hall : ∀ x ∈ mid ++ [r], x.2 ≤ k := by
    intro x hx
    cases hm : mid ++ [r] with
    | nil => simp at hm
    | cons y t =>
      have hy : y = start := by
        have e1 : start :: post = (mid ++ [r]) ++ rest := by simpa using e
        rw [hm] at e1
        simp only [List.cons_append, List.cons.injEq] at e1
        exact e1.1.symm
      rw [hm] at hx h3
      rcases List.mem_cons.mp hx with rfl | hx
      · rw [hy]; exact hstart
      · exact h3 x hx
  refine ⟨mid, r, rest, pv, e, h1, hr, fun x hx => hall x (by simp [hx]),
    hall r (by simp), ?_⟩
  intro x hx
  rw [e, List.map_append, List.map_cons] at hsorted
  have hs2 := (List.pairwise_append.mp hsorted).2.1
  cases rest with
  | nil => simp at hx
  | cons y t =>
    have hy : k < y.2 := h4 y (by simp)
    rcases List.mem_cons.mp hx with rfl | hx
    · exact hy
    · have hs3 := (List.pairwise_cons.mp hs2).2
      simp only [List.map_cons] at hs3
      exact lt_trans hy ((List.pairwise_cons.mp hs3).1 x.2 (List.mem_map_of_mem _ hx))

/-- A run of C14: the level 0, 5, 10 at the addresses 0, 2, 1, searched from its
head for the key 7; the search returns the node at address 2, which holds 5. -/
theorem C14_level_search_returns_rightmost_witness :
    LinkedList.search
        ⟨[⟨0, some 2, none, none, none⟩, ⟨10, none, some 2, none, none⟩,
          ⟨5, some 1, some 0, none, none⟩], []⟩ (some 0) 7 = some (some 2) ∧
      ∃ mid r rest pv, (0, (0 : Int)) :: [(2, 5), (1, 10)] = mid ++ r :: rest ∧
        LinkedList.search
          ⟨[⟨0, some 2, none, none, none⟩, ⟨10, none, some 2, none, none⟩,
            ⟨5, some 1, some 0, none, none⟩], []⟩ (some (0, (0 : Int)).1) 7
          = some (some r.1) ∧
        (Heap.mk [⟨0, some 2, none, none, none⟩, ⟨10, none, some 2, none, none⟩,
            ⟨5, some 1, some 0, none, none⟩] []).nodes[r.1]?
          = some ⟨r.2, rest.head?.map Prod.fst, pv, none, none⟩ ∧
        (∀ x ∈ mid, x.2 ≤ 7) ∧ r.2 ≤ 7 ∧ (∀ x ∈ rest, 7 < x.2) :=
  ⟨by decide,
    C14_level_search_returns_rightmost
      ⟨[⟨0, some 2, none, none, none⟩, ⟨10, none, some 2, none, none⟩,
        ⟨5, some 1, some 0, none, none⟩], []⟩ none (0, 0) [(2, 5), (1, 10)] 7
      ⟨rfl, rfl, rfl, trivial⟩ (by decide) (by decide)⟩

/-- A run of `insert` calls on a tower returns a tower, and its key sequences and
the values of `rand()` left are those of `keysRun`. -/
theorem IsTower.insertAll_keysRun :
    ∀ (keys : List Int) (s : SkipList) (T : List Lvl), IsTower s.heap s.topList T →
      ∃ s1 T1, SkipList.insertAll s keys = some s1 ∧ IsTower s1.heap s1.topList T1 ∧
        (T1.map Lvl.keys, s1.rands) = keysRun (T.map Lvl.keys, s.rands) keys
  | [], s, T, hT => ⟨s, T, rfl, hT, rfl⟩
  | k :: ks, s, T, hT => by
    have hi := hT.insert_cases k
    by_cases hd : scanBy id k ((T.map Lvl.keys).getLast?.getD []) = some k
    · obtain ⟨s2, T2, h4, h5, h6⟩ := IsTower.insertAll_keysRun ks s T hT
      refine ⟨s2, T2, by simp [SkipList.insertAll, hi.1 hd, h4], h5, ?_⟩
      have hstep : keysStep (T.map Lvl.keys, s.rands) k = (T.map Lvl.keys, s.rands) :=
        if_pos hd
      rw [h6]
      show keysRun _ ks = keysRun (keysStep _ k) ks
      rw [hstep]
    · obtain ⟨s1, T1, h1, hT1, hr, hk⟩ := hi.2 hd
      obtain ⟨s2, T2, h4, h5, h6⟩ := IsTower.insertAll_keysRun ks s1 T1 hT1
      refine ⟨s2, T2, by simp [SkipList.insertAll, h1, h4], h5, ?_⟩
      have hstep : keysStep (T.map Lvl.keys, s.rands) k = (T1.map Lvl.keys, s1.rands) := by
        rw [hk, hr]
        refine (if_neg hd).trans ?_
        simp only [List.length_map]
      rw [h6]
      show keysRun _ ks = keysRun (keysStep _ k) ks
      rw [hstep]

/-- C15: two programs that construct a skip list with the same bounds, on any two
heaps, draw the same values of `rand()` and make the same `insert` calls end with
towers of the same height that print the same key sequences in every level. -/
theorem C15_tower_shape_is_reproducible (h1 h2 : Heap) (rands : List Nat)
    (minVal maxVal : Int) (keys : List Int) :
    ∃ a0 a b0 b levels H, SkipList.new h1 rands minVal maxVal = some a0 ∧
      SkipList.insertAll a0 keys = some a ∧
      SkipList.new h2 rands minVal maxVal = some b0 ∧
      SkipList.insertAll b0 keys = some b ∧
      SkipList.printData a = some levels ∧ SkipList.printData b = some levels ∧
      SkipList.height a = some H ∧ SkipList.height b = some H ∧ a.rands = b.rands := by
  obtain ⟨a0, ha0, hra, hTa0⟩ := IsTower.new_eq h1 rands minVal maxVal
  obtain ⟨b0, hb0, hrb, hTb0⟩ := IsTower.new_eq h2 rands minVal maxVal
  obtain ⟨a, Ta, ha, hTa, hka⟩ := IsTower.insertAll_keysRun keys a0 _ hTa0
  obtain ⟨b, Tb, hb, hTb, hkb⟩ := IsTower.insertAll_keysRun keys b0 _ hTb0
  have hab : (Ta.map Lvl.keys, a.rands) = (Tb.map Lvl.keys, b.rands) := by
    rw [hka, hkb, hra, hrb]
    rfl
  simp only [Prod.mk.injEq] at hab
  have hlen : Ta.length = Tb.length := by
    have := congrArg List.length hab.1
    simpa using this
  refine ⟨a0, a, b0, b, _, Ta.length, ha0, ha, hb0, hb, hTa.printData_eq, ?_, hTa.height_eq,
    ?_, hab.2⟩
  · rw [hab.1]
    exact hTb.printData_eq
  · rw [hlen]
    exact hTb.height_eq

/-! ## Where a new key lands -/

/-- The guarded insertion of a key strictly between the ends of an increasing
sequence adds the key and nothing else. -/
theorem mem_insertBy_bounded (k lo hi : Int) (ks : List Int)
    (hs : (lo :: ks ++ [hi]).Sorted (· < ·)) (h1 : lo < k) (h2 : k < hi) (x : Int) :
    x ∈ insertBy id k k (lo :: ks ++ [hi]) ↔ x ∈ lo :: ks ++ [hi] ∨ x = k := by
  obtain ⟨ks1, e, hm⟩ := insertBy_bounded k hi ks lo hs h1 h2
  rw [e]
  simp only [List.cons_append, List.mem_cons, List.mem_append, List.mem_singleton, hm,
    List.not_mem_nil, or_false]
  tauto

/-- The constructor followed by any run of `insert` calls returns a tower whose
levels carry their sentinels and are strictly increasing. -/
theorem IsTower.reach_sorted (h : Heap) (rands : List Nat) (minVal maxVal : Int)
    (keys : List Int) (hlt : minVal < maxVal) :
    ∃ s0 s T, SkipList.new h rands minVal maxVal = some s0 ∧
      SkipList.insertAll s0 keys = some s ∧ IsTower s.heap s.topList T ∧
      Sentinels minVal maxVal (T.map Lvl.keys) ∧
      ∀ l ∈ T.map Lvl.keys, l.Sorted (· < ·) := by
  obtain ⟨s0, h0, -, hT0⟩ := IsTower.new_eq h rands minVal maxVal
  obtain ⟨s, T, h1, hT, hP⟩ := IsTower.insertAll_induct (fun _ => True)
    (fun _ K => (K ≠ [] ∧ Sentinels minVal maxVal K) ∧ ∀ l ∈ K, l.Sorted (· < ·))
    (fun _ K r d _ hK => ⟨Sentinels.keysInsert_step K r d hK.1, sorted_keysInsert K r d hK.2⟩)
    keys s0 _ [] (fun _ _ => trivial) hT0
    ⟨⟨by simp, by
      intro j l hl
      cases j with
      | zero =>
        simp only [List.map_cons, List.map_nil, List.getElem?_cons_zero, Option.some.injEq,
          Lvl.keys] at hl
        exact ⟨[], by rw [← hl]; rfl⟩
      | succ j => simp at hl⟩, by simp [Lvl.keys, List.Sorted, hlt]⟩
  exact ⟨s0, s, T, h0, h1, hT, hP.1.2, hP.2⟩

/-- Where a new key lands when the bounds lie within the range of `int`
(`INT_MIN ≤ minVal`, `maxVal ≤ INT_MAX`): after the constructor and any run of
`insert` calls, `insert(k)` of a key strictly within the bounds that no level holds
returns, and with `i` the promotion height it draws: the tower afterwards has at
least `i` levels, the level `j` (counted from the bottom-most one, `j = 0`) holds
`k` exactly if `j < i`, and every level that existed before holds the same keys
other than `k` as before. -/
theorem new_key_lands_of_int_bounds (h : Heap) (rands : List Nat)
    (minVal maxVal : Int) (keys : List Int) (k : Int)
    (hmin : INT_MIN ≤ minVal) (hmax : maxVal ≤ INT_MAX) (hk : minVal < k ∧ k < maxVal) :
    ∃ s0 s levels, SkipList.new h rands minVal maxVal = some s0 ∧
      SkipList.insertAll s0 keys = some s ∧ SkipList.printData s = some levels ∧
      ((∀ l ∈ levels, k ∉ l) →
        ∃ s1 r levels1, SkipList.insert s k = some (s1, r) ∧
          SkipList.printData s1 = some levels1 ∧
          (drawHeight s.rands 1).1 ≤ levels1.length ∧ levels.length ≤ levels1.length ∧
          (∀ j, j < levels1.length →
            (k ∈ (levels1.reverse[j]?).getD [] ↔ j < (drawHeight s.rands 1).1)) ∧
          (∀ j, j < levels.length → ∀ x, x ≠ k →
            (x ∈ (levels1.reverse[j]?).getD [] ↔ x ∈ (levels.reverse[j]?).getD []))) := by
  obtain ⟨s0, s, T, h0, h1, hT, hS, hsorted⟩ :=
    IsTower.reach_sorted h rands minVal maxVal keys (lt_trans hk.1 hk.2)
  refine ⟨s0, s, _, h0, h1, hT.printData_eq, fun hfree => ?_⟩
  have hnd : scanBy id k ((T.map Lvl.keys).getLast?.getD []) ≠ some k := by
    intro hd
    have hm := scanBy_mem id k _ _ hd
    cases hg : (T.map Lvl.keys).getLast? with
    | none => rw [hg] at hm; simp at hm
    | some U =>
      rw [hg] at hm
      exact hfree U (List.mem_reverse.mpr (List.mem_of_mem_getLast? hg)) hm
  obtain ⟨s1, T1, h2, hT1, -, hk1⟩ := (hT.insert_cases k).2 hnd
  have hc : (decide ((drawHeight s.rands 1).1 > T.length) = true ∧
        0 ≤ (T.map Lvl.keys).length) ∨
      (decide ((drawHeight s.rands 1).1 > T.length) = false ∧
        0 + (drawHeight s.rands 1).1 ≤ (T.map Lvl.keys).length) := by
    by_cases hi : (drawHeight s.rands 1).1 > T.length
    · exact Or.inl ⟨by simp [hi], Nat.zero_le _⟩
    · exact Or.inr ⟨by simp [hi], by simp; omega⟩
  have hlen := congrArg List.length hk1
  rw [length_keysLoop, List.length_map, List.length_map] at hlen
  have hTne : 0 < T.length := List.length_pos.mpr hT.nonempty
  -- the level `j` of the extended tower before the insertions
  have hshape : ∀ (j : Nat) (l0 : List Int), ((T.map Lvl.keys) ++
      (if decide ((drawHeight s.rands 1).1 > T.length) = true
        then List.replicate (drawHeight s.rands 1).1 [INT_MIN, INT_MAX] else []))[j]? = some l0 →
      k ∉ l0 ∧
        ∃ lo ks hi, l0 = lo :: ks ++ [hi] ∧ l0.Sorted (· < ·) ∧ lo < k ∧ k < hi := by
    intro j l0 h0
    have hI1 : INT_MIN < k := lt_of_le_of_lt hmin hk.1
    have hI2 : k < INT_MAX := lt_of_lt_of_le hk.2 hmax
    by_cases hj : j < (T.map Lvl.keys).length
    · rw [List.getElem?_append_left hj] at h0
      have hmem := List.getElem?_mem h0
      obtain ⟨ks, e⟩ := hS j l0 h0
      refine ⟨hfree l0 (List.mem_reverse.mpr hmem), _, ks, _, e, hsorted l0 hmem, ?_, ?_⟩
      · split_ifs
        · exact hk.1
        · exact hI1
      · split_ifs
        · exact hk.2
        · exact hI2
    · rw [List.getElem?_append_right (by omega)] at h0
      have hm := List.getElem?_mem h0
      have e : l0 = [INT_MIN, INT_MAX] := by
        split_ifs at hm
        · exact List.eq_of_mem_replicate hm
        · simp at hm
      subst e
      refine ⟨?_, INT_MIN, [], INT_MAX, rfl, by simp [List.Sorted]; decide, hI1, hI2⟩
      simp only [List.mem_cons, List.mem_singleton, List.not_mem_nil, or_false, not_or]
      exact ⟨ne_of_gt hI1, ne_of_lt hI2⟩
  have hget : ∀ j : Nat, (T1.map Lvl.keys)[j]? = (((T.map Lvl.keys) ++
      (if decide ((drawHeight s.rands 1).1 > T.length) = true
        then List.replicate (drawHeight s.rands 1).1 [INT_MIN, INT_MAX] else []))[j]?).map
      (fun l => if 0 ≤ j ∧ j < 0 + (drawHeight s.rands 1).1 then insertBy id k k l else l) := by
    intro j
    rw [hk1]
    exact getElem?_keysLoop _ k _ 0 _ j hc
  refine ⟨s1, _, _, h2, hT1.printData_eq, ?_, ?_, ?_, ?_⟩
  · simp only [List.length_reverse, List.length_map]
    split_ifs at hlen with hg
    · omega
    · simp at hg
      omega
  · simp only [List.length_reverse, List.length_map]
    omega
  · intro j hj
    rw [List.reverse_reverse, hget j]
    simp only [List.length_reverse, List.length_map] at hj
    cases h0 : ((T.map Lvl.keys) ++
      (if decide ((drawHeight s.rands 1).1 > T.length) = true
        then List.replicate (drawHeight s.rands 1).1 [INT_MIN, INT_MAX] else []))[j]? with
    | none =>
      exfalso
      rw [List.getElem?_eq_none_iff] at h0
      have := congrArg List.length hk1
      rw [length_keysLoop] at this
      simp only [List.length_append, List.length_map] at h0 this
      split_ifs at h0 this <;> simp at h0 <;> omega
    | some l0 =>
      obtain ⟨hfr, lo, ks, hi, e, hs, hlo, hhi⟩ := hshape j l0 h0
      simp only [Option.map_some', Option.getD_some, Nat.zero_le, true_and, Nat.zero_add]
      by_cases hji : j < (drawHeight s.rands 1).1
      · simp only [hji, if_true, iff_true]
        rw [e, mem_insertBy_bounded k lo hi ks (e ▸ hs) hlo hhi]
        exact Or.inr rfl
      · simp only [hji, if_false, iff_false]
        exact hfr
  · intro j hj x hx
    rw [List.reverse_reverse, List.reverse_reverse, hget j]
    simp only [List.length_reverse, List.length_map] at hj
    have hj1 : j < (T.map Lvl.keys).length := by simpa using hj
    have h0 : ((T.map Lvl.keys) ++
      (if decide ((drawHeight s.rands 1).1 > T.length) = true
        then List.replicate (drawHeight s.rands 1).1 [INT_MIN, INT_MAX] else []))[j]?
        = (T.map Lvl.keys)[j]? := List.getElem?_append_left hj1
    obtain ⟨l0, hl0⟩ : ∃ l0, (T.map Lvl.keys)[j]? = some l0 :=
      ⟨_, List.getElem?_eq_getElem hj1⟩
    obtain ⟨hfr, lo, ks, hi, e, hs, hlo, hhi⟩ := hshape j l0 (h0.trans hl0)
    rw [h0, hl0]
    simp only [Option.map_some', Option.getD_some, Nat.zero_le, true_and, Nat.zero_add]
    split_ifs
    · rw [e, mem_insertBy_bounded k lo hi ks (e ▸ hs) hlo hhi]
      simp [hx]
    · rfl

/-- A run of C12: in a fresh `LinkedList(0, 10)`, whose head is at address 0 and
whose tail is at address 1, `insert(head, 5)` returns the new node at address 2;
`insert(head, 0)` and `insert(nullptr, 5)` return `nullptr`. -/
theorem C12_level_insert_guard_witness :
    (∀ loc, some 0 = some loc →
        ∃ l, (LinkedList.new Heap.empty 0 10).1.nodes[loc]? = some l ∧
          ∀ nx, l.next = some nx →
            ∃ n, (LinkedList.new Heap.empty 0 10).1.nodes[nx]? = some n) ∧
      (∃ h1 r, LinkedList.insert (LinkedList.new Heap.empty 0 10).1 (some 0) 5 = some (h1, r) ∧
        h1.lists = (LinkedList.new Heap.empty 0 10).1.lists) ∧
      (LinkedList.insert (LinkedList.new Heap.empty 0 10).1 (some 0) 5).map
          (fun p => (p.2, p.1.nodes))
        = some (some 2, [⟨0, some 2, none, none, none⟩, ⟨10, none, some 2, none, none⟩,
            ⟨5, some 1, some 0, none, none⟩]) ∧
      LinkedList.insert (LinkedList.new Heap.empty 0 10).1 (some 0) 0
        = some ((LinkedList.new Heap.empty 0 10).1, none) ∧
      LinkedList.insert (LinkedList.new Heap.empty 0 10).1 none 5
        = some ((LinkedList.new Heap.empty 0 10).1, none) :=
  have hloc : ∀ loc, some 0 = some loc →
      ∃ l, (LinkedList.new Heap.empty 0 10).1.nodes[loc]? = some l ∧
        ∀ nx, l.next = some nx →
          ∃ n, (LinkedList.new Heap.empty 0 10).1.nodes[nx]? = some n :=
    fun loc hl => by
      cases hl
      exact ⟨_, rfl, fun nx hnx => by cases hnx; exact ⟨_, rfl⟩⟩
  ⟨hloc,
    (C12_level_insert_guard (LinkedList.new Heap.empty 0 10).1 (some 0) 5 hloc).imp
      fun _ hx => hx.imp fun _ hy => ⟨hy.1, hy.2.1⟩,
    by decide, by decide, by decide⟩

/-- A run within the range of `int`: bounds 0 and 10, the values `rand330` of
`rand()`, the keys 5, 3, 8 and then the new key 4, which draws the promotion
height 2 and lands in the two lowest of the four levels. -/
theorem new_key_lands_of_int_bounds_example :
    INT_MIN ≤ 0 ∧ (10 : Int) ≤ INT_MAX ∧ ((0 : Int) < 4 ∧ (4 : Int) < 10) ∧
      (∃ s0 s levels, SkipList.new Heap.empty rand330 0 10 = some s0 ∧
        SkipList.insertAll s0 [5, 3, 8] = some s ∧ SkipList.printData s = some levels ∧
        ((∀ l ∈ levels, (4 : Int) ∉ l) →
          ∃ s1 r levels1, SkipList.insert s 4 = some (s1, r) ∧
            SkipList.printData s1 = some levels1 ∧
            (drawHeight s.rands 1).1 ≤ levels1.length ∧ levels.length ≤ levels1.length ∧
            (∀ j, j < levels1.length →
              ((4 : Int) ∈ (levels1.reverse[j]?).getD [] ↔ j < (drawHeight s.rands 1).1)) ∧
            (∀ j, j < levels.length → ∀ x, x ≠ 4 →
              (x ∈ (levels1.reverse[j]?).getD [] ↔ x ∈ (levels.reverse[j]?).getD [])))) ∧
      (SkipList.run rand330 0 10 [5, 3, 8]).bind SkipList.printData
        = some [[INT_MIN, INT_MAX], [INT_MIN, 5, INT_MAX], [INT_MIN, 5, INT_MAX],
            [0, 3, 5, 8, 10]] ∧
      (SkipList.run rand330 0 10 [5, 3, 8]).map (fun s => (drawHeight s.rands 1).1) = some 2 ∧
      (SkipList.run rand330 0 10 [5, 3, 8, 4]).bind SkipList.printData
        = some [[INT_MIN, INT_MAX], [INT_MIN, 5, INT_MAX], [INT_MIN, 4, 5, INT_MAX],
            [0, 3, 4, 5, 8, 10]] :=
  ⟨by decide, by decide, by decide,
    new_key_lands_of_int_bounds Heap.empty rand330 0 10 [5, 3, 8] 4 (by decide)
      (by decide) (by decide),
    by decide, by decide, by decide⟩

/-- C18 (evaluation): with the key type `long long`, on a fresh
`SkipList(0, 10000000000)` with the values `rand330` of `rand()`, the call
`insert(5000000000)` of a key strictly within the bounds draws the promotion
height 3 and stores the key in the bottom-most level only: the three levels it
creates end with the sentinel `INT_MAX`, which is below the key, so their guard
refuses it. -/
theorem C18_new_key_refused_by_new_levels :
    ((0 : Int) < 5000000000 ∧ (5000000000 : Int) < 10000000000) ∧
      (SkipList.run rand330 0 10000000000 []).bind SkipList.printData
        = some [[0, 10000000000]] ∧
      (SkipList.run rand330 0 10000000000 []).map (fun s => (drawHeight s.rands 1).1)
        = some 3 ∧
      ((SkipList.run rand330 0 10000000000 []).bind
          (fun s => SkipList.insert s 5000000000)).map
          (fun p => (p.2, SkipList.printData p.1))
        = some (PtrVal.uninit,
            some [[INT_MIN, INT_MAX], [INT_MIN, INT_MAX], [INT_MIN, INT_MAX],
              [0, 5000000000, 10000000000]]) := by
  decide

/-- The height after `insert`: unchanged on the duplicate exit; otherwise, with `i`
the promotion height drawn and `H` the height before, `H + i` if `i > H` (the loop
adds a level in each of its `i` iterations) and `H` if not. -/
theorem height_after_insert (h : Heap) (rands : List Nat) (minVal maxVal : Int)
    (keys : List Int) (data : Int) :
    ∃ s0 s H s1 r H1, SkipList.new h rands minVal maxVal = some s0 ∧
      SkipList.insertAll s0 keys = some s ∧ SkipList.height s = some H ∧
      SkipList.insert s data = some (s1, r) ∧ SkipList.height s1 = some H1 ∧
      (r = PtrVal.val none ∨ r = PtrVal.uninit) ∧
      (r = PtrVal.val none → H1 = H) ∧
      (r = PtrVal.uninit →
        H1 = if (drawHeight s.rands 1).1 > H then H + (drawHeight s.rands 1).1 else H) := by
  obtain ⟨s0, s, T, h0, h1, hT⟩ := IsTower.reach h rands minVal maxVal keys
  have hi := hT.insert_cases data
  by_cases hd : scanBy id data ((T.map Lvl.keys).getLast?.getD []) = some data
  · exact ⟨s0, s, T.length, s, _, T.length, h0, h1, hT.height_eq, hi.1 hd, hT.height_eq,
      Or.inl rfl, fun _ => rfl, fun hr => PtrVal.noConfusion hr⟩
  · obtain ⟨s1, T1, h2, hT1, -, hk⟩ := hi.2 hd
    have hlen := congrArg List.length hk
    rw [length_keysLoop, List.length_map, List.length_map] at hlen
    refine ⟨s0, s, T.length, s1, _, T1.length, h0, h1, hT.height_eq, h2, hT1.height_eq,
      Or.inr rfl, fun hr => PtrVal.noConfusion hr, fun _ => ?_⟩
    rw [hlen]
    by_cases hg : (drawHeight s.rands 1).1 > T.length <;> simp [hg]
